import Mathlib

/-!
Skill-swap front end: match scoring and trending skills.

A shallow embedding of the two pure helpers at the top of
`src/FrontEnd/src/App.js` (`calculateMatchScore`, `calculateTrendingSkills`),
of the list `potentialFriends` computed by `RecommendedFriends`, of the
snapshot filter of `listenToUsers` (firebaseHelpers.js), of `addSkill` and
`removeSkill` (App.js and pages/ProfilePage.js, as functions from state to
state) and of `handleRequestSkill` (components/modals/UserDetailModal.js),
together with the parts of the JavaScript run-time they rely on:

* Numbers are IEEE-754 binary64.  The score is computed as
  `Math.round((m / total) * 100)`, so the quotient and the product are each
  rounded to binary64 (round to nearest, ties to even) before `Math.round`
  is applied.  The values met here are non-negative and at most 100, so only
  finite non-negative doubles are modelled.
* `skillCount` is an ordinary object literal `{}`: reads fall through to
  `Object.prototype`, a write to `__proto__` goes to the inherited setter, and
  `Object.entries` lists array-index keys in ascending numeric order before
  the other keys in creation order.
* `Array.prototype.sort` is stable; it is modelled by insertion sort, which
  agrees with every stable sort when the comparator is consistent.  A
  comparator result `NaN` is read as `+0`; with such results the comparator
  is not consistent and the order is up to the engine, so statements about
  the order of the trending list are made for populations whose counts are
  all numbers, or at inputs where every order breaks the property.
* A user record carries the document key as `id` and the account key as
  `uid`; `RecommendedFriends` reads `uid` on users and on the current user
  and `id` on friends.
* `String.prototype.trim` strips the ECMAScript white space and line
  terminator characters.
-/

namespace SkillSwap

/-! ## Binary64 arithmetic on non-negative values -/

/-- A finite non-negative binary64 value, `mant * 2 ^ exp`. -/
structure Binary64 where
  mant : Nat
  exp : Int
  deriving DecidableEq

/-- The rational number a `Binary64` stands for. -/
def Binary64.toRat (x : Binary64) : ℚ := (x.mant : ℚ) * (2 : ℚ) ^ x.exp

/-- Nearest natural number to `n / d`, a tie going to the even neighbour
(the IEEE-754 default rounding of a significand). -/
def roundTiesEven (n d : Nat) : Nat :=
  let q := n / d
  let r := n % d
  if 2 * r < d then q
  else if d < 2 * r then q + 1
  else if q % 2 = 0 then q else q + 1

/-- Binary logarithm by repeated halving; `fuel` bounds the number of steps. -/
def log2Fuel : Nat → Nat → Nat
  | 0, _ => 0
  | fuel + 1, n => if 2 ≤ n then log2Fuel fuel (n / 2) + 1 else 0

/-- The position of the leading bit of `n`: `floor (log2 n)`, and `0` for `n = 0`. -/
def log2 (n : Nat) : Nat := log2Fuel n n

/-- The binary exponent of `n / d` for positive `n`, `d`: the integer `e` with
`2 ^ e ≤ n / d < 2 ^ (e + 1)`. -/
def floorLog2 (n d : Nat) : Int :=
  let k : Int := (log2 n : Int) - (log2 d : Int)
  if d * 2 ^ k.toNat ≤ n * 2 ^ (-k).toNat then k else k - 1

/-- The binary64 number nearest to the exact quotient `n / d` (`d > 0`):
53 significant bits, ties to even, gradual underflow below `2 ^ (-1022)`.
Overflow to `Infinity` is not modelled: the quotients taken here are at
most 100. -/
def Binary64.ofQuot (n d : Nat) : Binary64 :=
  if n = 0 then ⟨0, 0⟩
  else
    let e : Int := max (floorLog2 n d) (-1022)
    let s : Int := 52 - e
    ⟨roundTiesEven (n * 2 ^ s.toNat) (d * 2 ^ (-s).toNat), e - 52⟩

/-- JavaScript `a / b` for two Numbers holding the non-negative integers
`a` and `b > 0` (both exactly representable). -/
def numDiv (a b : Nat) : Binary64 := Binary64.ofQuot a b

/-- JavaScript `x * k` for a finite non-negative Number `x` and a
non-negative integer constant `k`: the exact product, rounded to binary64. -/
def numMul (x : Binary64) (k : Nat) : Binary64 :=
  Binary64.ofQuot (x.mant * k * 2 ^ x.exp.toNat) (2 ^ (-x.exp).toNat)

/-- JavaScript `Math.round(x)` for a finite non-negative Number: the integer
closest to `x`, the larger one when two are equally close, that is
`floor (x + 1/2)` computed exactly. -/
def mathRound (x : Binary64) : Nat :=
  (2 * (x.mant * 2 ^ x.exp.toNat) + 2 ^ (-x.exp).toNat) / (2 * 2 ^ (-x.exp).toNat)

/-! ## Profiles -/

/-- A user record as delivered by the data feed.  Any field may be missing;
a missing field is `none`.  The feed sets `id` to the document key and `uid`
to the stored `uid`, or to the document key if none is stored. -/
structure Profile where
  id : Option String := none
  uid : Option String := none
  name : Option String := none
  skillsOffered : Option (List String) := none
  skillsWanted : Option (List String) := none
  isPublic : Option Bool := none
  deriving DecidableEq

/-- The expression `xs || []` for a skill list that may be missing. -/
def orEmpty (xs : Option (List String)) : List String :=
  match xs with
  | some l => l
  | none => []

/-! ## `calculateMatchScore` (App.js, lines 23-43) -/

/-- The match score of two profiles, either of which may be `null` or
`undefined` (`none`). -/
def calculateMatchScore (user1 user2 : Option Profile) : Nat :=
  match user1, user2 with
  | some u1, some u2 =>
    let user1Offered := orEmpty u1.skillsOffered
    let user1Wanted := orEmpty u1.skillsWanted
    let user2Offered := orEmpty u2.skillsOffered
    let user2Wanted := orEmpty u2.skillsWanted
    let matchesForUser1 := (user1Wanted.filter (fun skill => user2Offered.contains skill)).length
    let matchesForUser2 := (user2Wanted.filter (fun skill => user1Offered.contains skill)).length
    let totalPossibleMatches := max (user1Wanted.length + user2Wanted.length) 1
    mathRound (numMul (numDiv (matchesForUser1 + matchesForUser2) totalPossibleMatches) 100)
  | _, _ => 0

/-! ## The `skillCount` object of `calculateTrendingSkills` -/

/-- A value held by a property of `skillCount`: a Number holding a natural
number, or a string.  (A count only turns into a string when the property
name is inherited from `Object.prototype`, see `readPlusOne`.) -/
inductive CountValue where
  | num (n : Nat)
  | text (s : String)
  deriving DecidableEq

/-- The own properties of `skillCount`, in order of creation. -/
abbrev SkillCount := List (String × CountValue)

/-- The method names of `Object.prototype` (ECMAScript, with Annex B). -/
def objectPrototypeMethods : List String :=
  ["constructor", "hasOwnProperty", "isPrototypeOf", "propertyIsEnumerable",
   "toLocaleString", "toString", "valueOf", "__defineGetter__", "__defineSetter__",
   "__lookupGetter__", "__lookupSetter__"]

/-- What `skillCount[key]` converts to in a `+` when `skillCount` has no own
property `key` but `Object.prototype` has one: the source text of a built-in
function (as V8 prints it), or `[object Object]` for the `__proto__` getter,
which returns `Object.prototype` itself.  `none` when nothing is inherited. -/
def inheritedText (key : String) : Option String :=
  if key = "__proto__" then some "[object Object]"
  else if key = "constructor" then some "function Object() \x7b [native code] \x7d"
  else if objectPrototypeMethods.contains key then
    some ("function " ++ key ++ "() \x7b [native code] \x7d")
  else none

/-- The value of `(skillCount[skill] || 0) + 1`.  An own Number is
incremented (exactly, counts stay far below `2 ^ 53`); an own string, always
non-empty and so truthy, has `"1"` appended; an inherited function or object
is truthy and `+` concatenates its string conversion with `"1"`; a missing
property reads `undefined`, which `|| 0` replaces by `0`. -/
def readPlusOne (skillCount : SkillCount) (skill : String) : CountValue :=
  match skillCount.lookup skill with
  | some (CountValue.num n) => CountValue.num (n + 1)
  | some (CountValue.text s) => if s = "" then CountValue.num 1 else CountValue.text (s ++ "1")
  | none =>
    match inheritedText skill with
    | some s => CountValue.text (s ++ "1")
    | none => CountValue.num 1

/-- Replace the value of the own property `key`, keeping its position. -/
def updateOwn (key : String) (v : CountValue) : SkillCount → SkillCount
  | [] => []
  | (k, w) :: rest => if k = key then (k, v) :: rest else (k, w) :: updateOwn key v rest

/-- The assignment `skillCount[key] = v` for a primitive `v`.  The key
`__proto__` reaches the setter inherited from `Object.prototype`, which
ignores a value that is neither an object nor `null`; an existing own
property is overwritten in place; otherwise a new own property is created
after all existing ones. -/
def assign (skillCount : SkillCount) (key : String) (v : CountValue) : SkillCount :=
  if key = "__proto__" then skillCount
  else if (skillCount.lookup key).isSome then updateOwn key v skillCount
  else skillCount ++ [(key, v)]

/-- The canonical decimal index a property key denotes, if it is an array
index: a digit string without a leading zero (or `"0"` itself) whose value
is at most `2 ^ 32 - 2`. -/
def arrayIndex? (key : String) : Option Nat :=
  let cs := key.toList
  if cs ≠ [] ∧ cs.all Char.isDigit ∧ (cs.head? ≠ some '0' ∨ cs.length = 1) then
    let n := cs.foldl (fun acc c => 10 * acc + (c.toNat - 48)) 0
    if n < 4294967295 then some n else none
  else none

/-- The iteration order of `Object.entries` on an ordinary object: array-index
keys in ascending numeric order, then the other string keys in creation
order.  All properties made by assignment are enumerable. -/
def objectEntries (skillCount : SkillCount) : List (String × CountValue) :=
  let indexed := skillCount.filter (fun kv => (arrayIndex? kv.1).isSome)
  let named := skillCount.filter (fun kv => (arrayIndex? kv.1).isNone)
  indexed.insertionSort (fun a b => (arrayIndex? a.1).getD 0 ≤ (arrayIndex? b.1).getD 0) ++ named

/-! ## `calculateTrendingSkills` (App.js, lines 46-67) -/

/-- One entry of the trending list. -/
structure SkillTrend where
  skill : String
  count : CountValue
  mentors : List Profile
  deriving DecidableEq

/-- The two nested `forEach` loops: every entry of every present
`skillsOffered` list bumps its property of `skillCount`. -/
def countSkills (users : List Profile) : SkillCount :=
  users.foldl
    (fun skillCount user =>
      match user.skillsOffered with
      | none => skillCount
      | some skills =>
        skills.foldl (fun acc skill => assign acc skill (readPlusOne acc skill)) skillCount)
    []

/-- The predicate `user.skillsOffered?.includes(skill)`, `undefined` (falsy)
when the list is missing. -/
def offers (skill : String) (user : Profile) : Bool :=
  match user.skillsOffered with
  | none => false
  | some skills => skills.contains skill

/-- The conversion `ToNumber` on a stored count: `none` stands for `NaN`.
Every string stored in `skillCount` starts with `function` or `[object`,
which is not a numeric literal. -/
def CountValue.toNumber : CountValue → Option Nat
  | CountValue.num n => some n
  | CountValue.text _ => none

/-- The comparator `(a, b) => b.count - a.count`; `none` stands for `NaN`. -/
def compareCount (a b : SkillTrend) : Option Int :=
  match b.count.toNumber, a.count.toNumber with
  | some y, some x => some ((y : Int) - (x : Int))
  | _, _ => none

/-- Whether `a` may stay ahead of `b`: the comparator result is not positive,
where `Array.prototype.sort` reads a `NaN` result as `+0`. -/
def staysBefore (a b : SkillTrend) : Prop := (compareCount a b).getD 0 ≤ 0

instance : DecidableRel staysBefore := fun a b =>
  inferInstanceAs (Decidable ((compareCount a b).getD 0 ≤ 0))

/-- The trending list: entries of `skillCount` turned into records, sorted
by the comparator with a stable sort (as ECMAScript requires of
`Array.prototype.sort`), cut to the first five.  The sort step is exact when
every count is a number.  Once a count is a string the comparator yields
`NaN`, it is no longer consistent, and ECMAScript leaves the order to the
engine: insertion sort then gives one such order, and an engine may give
another (for the offered names `a, b, b, constructor, c, c`, insertion sort
yields `b, a, constructor, c`, while a sort that first reverses the
descending run `a, b` and then inserts by binary search yields
`b, c, a, constructor`). -/
def calculateTrendingSkills (users : List Profile) : List SkillTrend :=
  let skillCount := countSkills users
  let trendingSkills :=
    (((objectEntries skillCount).map
        (fun entry =>
          ({ skill := entry.1, count := entry.2,
             mentors := users.filter (fun user => offers entry.1 user) } : SkillTrend))).insertionSort
      staysBefore).take 5
  trendingSkills

/-- The value of the method chain of `calculateTrendingSkills` after
`.sort(...)` and before `.slice(0, 5)`: the full ranking, with the same sort
step as `calculateTrendingSkills` (exact when every count is a number). -/
def rankedSkills (users : List Profile) : List SkillTrend :=
  ((objectEntries (countSkills users)).map
      (fun entry =>
        ({ skill := entry.1, count := entry.2,
           mentors := users.filter (fun user => offers entry.1 user) } : SkillTrend))).insertionSort
    staysBefore

/-- A call `calculateTrendingSkills(users, topN)` with a second argument.  The
arrow function declares the single parameter `users`, so the extra argument
is bound to nothing and the body runs as for `calculateTrendingSkills(users)`;
`none` stands for a call without the second argument. -/
def calculateTrendingSkillsWith (users : List Profile) (_topN : Option Nat) : List SkillTrend :=
  calculateTrendingSkills users

/-! ## `RecommendedFriends` (App.js, lines 588-598) -/

/-- One element of `potentialFriends`: the object `{ ...user, matchScore }`,
a copy of every field of `user` with the field `matchScore` added. -/
structure Recommendation where
  user : Profile
  matchScore : Nat
  deriving DecidableEq

/-- The expression `currentUser?.uid`: `undefined` when `currentUser` is
`null` or `undefined`, or when it has no `uid`. -/
def optionalUid (currentUser : Option Profile) : Option String :=
  match currentUser with
  | none => none
  | some c => c.uid

/-- The comparator `(a, b) => b.matchScore - a.matchScore`. -/
def compareScore (a b : Recommendation) : Int := (b.matchScore : Int) - (a.matchScore : Int)

/-- Whether `a` may stay ahead of `b` in the sort: the comparator result is
not positive. -/
def scoreStaysBefore (a b : Recommendation) : Prop := compareScore a b ≤ 0

instance : DecidableRel scoreStaysBefore := fun a b =>
  inferInstanceAs (Decidable (compareScore a b ≤ 0))

/-- The list `potentialFriends` computed by `RecommendedFriends`: the users
that pass the filter, each with its match score, sorted by the comparator
with a stable sort, cut to the first three. -/
def potentialFriends (users : List Profile) (currentUser : Option Profile)
    (friends : List Profile) : List Recommendation :=
  let friendIds := friends.map (fun f => f.id)
  (((users.filter
        (fun user => user.uid != optionalUid currentUser && !friendIds.contains user.uid)).map
      (fun user =>
        ({ user := user, matchScore := calculateMatchScore currentUser (some user) }
          : Recommendation))).insertionSort
    scoreStaysBefore).take 3

/-! ## Trimming -/

/-- The code points that `String.prototype.trim` strips: the ECMAScript
`WhiteSpace` and `LineTerminator` characters. -/
def isWhiteSpace (c : Char) : Bool :=
  let n := c.toNat
  n == 9 || n == 10 || n == 11 || n == 12 || n == 13 || n == 32 || n == 160 || n == 5760
    || (8192 ≤ n && n ≤ 8202) || n == 8232 || n == 8233 || n == 8239 || n == 8287
    || n == 12288 || n == 65279

/-- JavaScript `s.trim()`: `s` without its leading and trailing white space. -/
def trim (s : String) : String :=
  String.mk (((s.toList.dropWhile isWhiteSpace).reverse.dropWhile isWhiteSpace).reverse)

/-! ## The user feed of `listenToUsers` (firebaseHelpers.js, lines 141-174) -/

/-- The record `{ ...userData, uid: userData.uid || doc.id, id: doc.id }` built
for one document of the snapshot; an empty `uid` is falsy. -/
def userWithId (docId : String) (userData : Profile) : Profile :=
  { userData with
    uid := some (match userData.uid with
      | some u => if u = "" then docId else u
      | none => docId),
    id := some docId }

/-- The value of `user.name && user.name.trim()` read as a condition: a
missing or empty name is falsy, otherwise the trimmed name decides. -/
def hasName (user : Profile) : Bool :=
  match user.name with
  | none => false
  | some n => if n = "" then false else trim n != ""

/-- The filter callback of `listenToUsers`: `hasName && isPublic`, where
`isPublic` is `user.isPublic !== false`. -/
def keepUser (user : Profile) : Bool :=
  let isPublic := user.isPublic != some false
  hasName user && isPublic

/-- The list `filteredUsers` handed to the callback. -/
def filteredUsers (users : List Profile) : List Profile :=
  users.filter keepUser

/-- The snapshot handler of `listenToUsers`: one record per document, in
snapshot order, then the filter. -/
def listenToUsers (docs : List (String × Profile)) : List Profile :=
  filteredUsers (docs.map (fun doc => userWithId doc.1 doc.2))

/-! ## The profile form (App.js, lines 90-98 and 241-269) -/

/-- The state `profileForm`. -/
structure ProfileForm where
  name : String := ""
  location : String := ""
  skillsOffered : List String := []
  skillsWanted : List String := []
  availability : String := "weekends"
  isPublic : Bool := true
  bio : String := ""
  deriving DecidableEq

/-- The array `xs.filter((_, i) => i !== index)` for an integer `index`. -/
def filterIndex (xs : List String) (index : Int) : List String :=
  (xs.enum.filter (fun p => decide ((p.1 : Int) ≠ index))).map Prod.snd

/-- App.js `addSkill(type, skill)`: the next value of `profileForm`. -/
def addSkill (profileForm : ProfileForm) (type skill : String) : ProfileForm :=
  if trim skill = "" then profileForm
  else if type = "offered" then
    { profileForm with skillsOffered := profileForm.skillsOffered ++ [trim skill] }
  else
    { profileForm with skillsWanted := profileForm.skillsWanted ++ [trim skill] }

/-- App.js `removeSkill(type, index)`: the next value of `profileForm`. -/
def removeSkill (profileForm : ProfileForm) (type : String) (index : Int) : ProfileForm :=
  if type = "offered" then
    { profileForm with skillsOffered := filterIndex profileForm.skillsOffered index }
  else
    { profileForm with skillsWanted := filterIndex profileForm.skillsWanted index }

/-! ## The profile page (pages/ProfilePage.js, lines 65-101) -/

/-- The state of `ProfilePage` that `addSkill` and `removeSkill` touch: the
form and the two input fields. -/
structure ProfilePageState where
  profileForm : ProfileForm := {}
  newSkillOffered : String := ""
  newSkillWanted : String := ""
  deriving DecidableEq

/-- ProfilePage `addSkill(type, skill)`: the next state.  The membership test
reads `profileForm` of the current render, the update function receives the
latest state `prev`; the two are the same state here. -/
def ProfilePageState.addSkill (st : ProfilePageState) (type skill : String) :
    ProfilePageState :=
  if trim skill = "" then st
  else
    let skillToAdd := trim skill
    if type = "offered" then
      if !st.profileForm.skillsOffered.contains skillToAdd then
        { st with
          profileForm :=
            { st.profileForm with skillsOffered := st.profileForm.skillsOffered ++ [skillToAdd] },
          newSkillOffered := "" }
      else { st with newSkillOffered := "" }
    else
      if !st.profileForm.skillsWanted.contains skillToAdd then
        { st with
          profileForm :=
            { st.profileForm with skillsWanted := st.profileForm.skillsWanted ++ [skillToAdd] },
          newSkillWanted := "" }
      else { st with newSkillWanted := "" }

/-- ProfilePage `removeSkill(type, index)`: the next state. -/
def ProfilePageState.removeSkill (st : ProfilePageState) (type : String) (index : Int) :
    ProfilePageState :=
  if type = "offered" then
    { st with
      profileForm :=
        { st.profileForm with skillsOffered := filterIndex st.profileForm.skillsOffered index } }
  else
    { st with
      profileForm :=
        { st.profileForm with skillsWanted := filterIndex st.profileForm.skillsWanted index } }

/-! ## `handleRequestSkill` (components/modals/UserDetailModal.js, lines 7-49) -/

/-- The arguments of one call `sendSwapRequest(targetUser, mySkill, theirSkill)`. -/
structure SwapRequestCall where
  targetUser : Profile
  mySkill : String
  theirSkill : String
  deriving DecidableEq

/-- What one click on a request button does. -/
inductive RequestOutcome where
  | ignored
  | alerted (message : String)
  | declined
  | sent (call : SwapRequestCall)
  deriving DecidableEq

/-- The handler `handleRequestSkill(skill)` of the modal for `user`.  The
argument `promptAnswer` is what `prompt` returns if it is shown: the typed
text, or `none` for `null` when the dialog is cancelled.  The inline handler
of the `Request` button in App.js (lines 1017-1029) has the same guards. -/
def handleRequestSkill (currentUser : Option Profile) (user : Profile) (skill : String)
    (promptAnswer : Option String) : RequestOutcome :=
  match currentUser with
  | none => RequestOutcome.ignored
  | some current =>
    let myWantedSkills := orEmpty current.skillsWanted
    if myWantedSkills.contains skill then
      match promptAnswer with
      | none => RequestOutcome.declined
      | some mySkill =>
        if mySkill ≠ "" ∧ (orEmpty current.skillsOffered).contains mySkill then
          RequestOutcome.sent { targetUser := user, mySkill := mySkill, theirSkill := skill }
        else RequestOutcome.declined
    else
      RequestOutcome.alerted
        ("Add \"" ++ skill ++ "\" to your wanted skills first to request a swap!")

/-- The object `requestData` that `sendSwapRequest` hands to
`createSwapRequest`. -/
structure SwapRequestData where
  fromUid : Option String
  fromName : Option String
  toUid : Option String
  toName : Option String
  mySkill : String
  theirSkill : String
  deriving DecidableEq

/-- The modal's `sendSwapRequest(targetUser, mySkill, theirSkill)`: nothing is
created unless `currentUser?.uid` is truthy. -/
def sendSwapRequest (currentUser : Option Profile) (call : SwapRequestCall) :
    Option SwapRequestData :=
  match currentUser with
  | none => none
  | some current =>
    match current.uid with
    | none => none
    | some uid =>
      if uid = "" then none
      else some
        { fromUid := some uid, fromName := current.name,
          toUid := call.targetUser.uid, toName := call.targetUser.name,
          mySkill := call.mySkill, theirSkill := call.theirSkill }

/-- The request created by one click on a request button, if any. -/
def requestCreated (currentUser : Option Profile) (user : Profile) (skill : String)
    (promptAnswer : Option String) : Option SwapRequestData :=
  match handleRequestSkill currentUser user skill promptAnswer with
  | RequestOutcome.sent call => sendSwapRequest currentUser call
  | _ => none

/-! ## Auxiliary notions used in the statements -/

/-- A profile with every missing skill list replaced by the empty list. -/
def fillAbsent (p : Profile) : Profile :=
  { p with skillsOffered := some (orEmpty p.skillsOffered),
           skillsWanted := some (orEmpty p.skillsWanted) }

/-- A profile offers a skill at least once: its `skillsOffered` is present and
has the skill among its entries. -/
def offersAtLeastOnce (skill : String) (p : Profile) : Prop :=
  ∃ l, p.skillsOffered = some l ∧ skill ∈ l

instance (skill : String) (p : Profile) : Decidable (offersAtLeastOnce skill p) :=
  match h : p.skillsOffered with
  | none => isFalse (fun ⟨_, hl, _⟩ => by rw [h] at hl; cases hl)
  | some l =>
    if hm : skill ∈ l then isTrue ⟨l, h, hm⟩
    else isFalse (fun ⟨_, hl, hm2⟩ => by rw [h] at hl; cases hl; exact hm hm2)

/-- The number of matches named in the specification: the entries of
`self.skillsWanted` that occur in `other.skillsOffered`, plus the entries of
`other.skillsWanted` that occur in `self.skillsOffered`. -/
def specMatches (self other : Profile) : Nat :=
  (orEmpty self.skillsWanted).countP (fun w => decide (w ∈ orEmpty other.skillsOffered))
    + (orEmpty other.skillsWanted).countP (fun w => decide (w ∈ orEmpty self.skillsOffered))

/-- The denominator named in the specification:
`max(len(self.skillsWanted) + len(other.skillsWanted), 1)`. -/
def specDenominator (self other : Profile) : Nat :=
  max ((orEmpty self.skillsWanted).length + (orEmpty other.skillsWanted).length) 1

/-- The percentage `100 * matches / denominator` rounded to the nearest
integer in exact arithmetic, a tie at one half going up:
`floor (100 * matches / denominator + 1/2)`. -/
def exactScore (self other : Profile) : Nat :=
  (200 * specMatches self other + specDenominator self other) / (2 * specDenominator self other)

/-- One pass of the inner loop body. -/
def bump (acc : SkillCount) (skill : String) : SkillCount :=
  assign acc skill (readPlusOne acc skill)

/-- Every entry of every present `skillsOffered` list, in iteration order. -/
def allOffered (users : List Profile) : List String :=
  (users.map (fun u => orEmpty u.skillsOffered)).flatten

/-- The total number of occurrences of a skill name over all profiles,
in their `skillsOffered` lists. -/
def occurrences (skill : String) (users : List Profile) : Nat :=
  (users.map (fun u => (orEmpty u.skillsOffered).count skill)).sum

/-- The state of `skillCount` after the skills `seen` have been processed:
own keys are distinct, and an own property whose name is not inherited holds
the number of times the name has been seen. -/
def CountInv (sc : SkillCount) (seen : List String) : Prop :=
  (sc.map Prod.fst).Nodup ∧
  ∀ k, inheritedText k = none →
    sc.lookup k = if seen.count k = 0 then none else some (CountValue.num (seen.count k))

/-- The comparison of two counts as numbers: both are Numbers and the first
is at least the second. -/
def countAtLeast : CountValue → CountValue → Prop
  | CountValue.num x, CountValue.num y => y ≤ x
  | _, _ => False

instance : DecidableRel countAtLeast
  | CountValue.num x, CountValue.num y => inferInstanceAs (Decidable (y ≤ x))
  | CountValue.num _, CountValue.text _ => isFalse (fun h => h)
  | CountValue.text _, CountValue.num _ => isFalse (fun h => h)
  | CountValue.text _, CountValue.text _ => isFalse (fun h => h)

/-- The skill names in the order in which iterating the population first
meets them. -/
def firstEncounter (skills : List String) : List String :=
  skills.foldl (fun acc s => if s ∈ acc then acc else acc ++ [s]) []

/-- The number of distinct skill names in the profiles, counted over their
`skillsOffered` lists. -/
def distinctOffered (users : List Profile) : Nat :=
  (allOffered users).dedup.length

/-- Adjacent entries have non-increasing counts:
`e_i.count ≥ e_(i+1).count` for every `i`. -/
def countsNonIncreasing : List SkillTrend → Prop
  | a :: b :: rest => countAtLeast a.count b.count ∧ countsNonIncreasing (b :: rest)
  | _ => True

instance decidableCountsNonIncreasing : DecidablePred countsNonIncreasing
  | [] => isTrue trivial
  | [_] => isTrue trivial
  | a :: b :: rest =>
    have : Decidable (countsNonIncreasing (b :: rest)) :=
      decidableCountsNonIncreasing (b :: rest)
    inferInstanceAs (Decidable (countAtLeast a.count b.count ∧ countsNonIncreasing (b :: rest)))

/-- A population profile is the current user: a current user exists and has
the same `uid`. -/
def isCurrentUser (currentUser : Option Profile) (u : Profile) : Prop :=
  match currentUser with
  | none => False
  | some c => u.uid = c.uid

instance (currentUser : Option Profile) (u : Profile) : Decidable (isCurrentUser currentUser u) :=
  match currentUser with
  | none => isFalse (fun h => h)
  | some c => inferInstanceAs (Decidable (u.uid = c.uid))

/-- A population profile is an existing friend: its `uid` is the `id` of an
element of the friends list. -/
def isFriend (friends : List Profile) (u : Profile) : Prop :=
  ∃ f ∈ friends, u.uid = f.id

instance (friends : List Profile) (u : Profile) : Decidable (isFriend friends u) :=
  inferInstanceAs (Decidable (∃ f ∈ friends, u.uid = f.id))

/-- Seven users, each offering one skill that no other user offers. -/
def sevenSkillUsers : List Profile :=
  [{ skillsOffered := some ["s1"] }, { skillsOffered := some ["s2"] },
   { skillsOffered := some ["s3"] }, { skillsOffered := some ["s4"] },
   { skillsOffered := some ["s5"] }, { skillsOffered := some ["s6"] },
   { skillsOffered := some ["s7"] }]

/-- A string is blank: it is empty or consists of white space only. -/
def isBlank (s : String) : Prop := ∀ c ∈ s.toList, isWhiteSpace c = true

instance (s : String) : Decidable (isBlank s) :=
  inferInstanceAs (Decidable (∀ c ∈ s.toList, isWhiteSpace c = true))

/-- The name of a record is present and not blank. -/
def nameNonBlank (u : Profile) : Prop :=
  match u.name with
  | none => False
  | some n => ¬ isBlank n

instance (u : Profile) : Decidable (nameNonBlank u) :=
  match h : u.name with
  | none => isFalse (by unfold nameNonBlank; rw [h]; exact fun x => x)
  | some n =>
    if hb : isBlank n then isFalse (by unfold nameNonBlank; rw [h]; exact fun x => x hb)
    else isTrue (by unfold nameNonBlank; rw [h]; exact hb)

/-- The skill list that `type` selects: `skillsOffered` for `offered`,
`skillsWanted` for every other value. -/
def selectedSkills (type : String) (form : ProfileForm) : List String :=
  if type = "offered" then form.skillsOffered else form.skillsWanted

/-- The skill list that `type` does not select. -/
def otherSkills (type : String) (form : ProfileForm) : List String :=
  if type = "offered" then form.skillsWanted else form.skillsOffered

/-- The profile with the skill `s` appended to its `skillsOffered` (a missing
list counting as empty). -/
def appendOffered (p : Profile) (s : String) : Profile :=
  { p with skillsOffered := some (orEmpty p.skillsOffered ++ [s]) }

/-! ## Lemmas on binary64 rounding -/

/-- With enough fuel the halving loop brackets `n` between two consecutive
powers of two. -/
theorem log2Fuel_spec (fuel n : Nat) (hn : 0 < n) (hf : n ≤ fuel) :
    2 ^ log2Fuel fuel n ≤ n ∧ n < 2 ^ (log2Fuel fuel n + 1) := by
  induction fuel generalizing n with
  | zero => omega
  | succ f ih =>
    unfold log2Fuel
    by_cases h2 : 2 ≤ n
    · simp only [h2, if_true]
      have := ih (n / 2) (by omega) (by omega)
      rw [pow_succ, pow_succ (n := log2Fuel f (n / 2) + 1)]
      omega
    · simp only [h2, if_false]
      have : n = 1 := by omega
      subst this
      decide

/-- The leading-bit position brackets a positive `n`: `2 ^ log2 n ≤ n < 2 ^ (log2 n + 1)`. -/
theorem log2_spec (n : Nat) (hn : 0 < n) : 2 ^ log2 n ≤ n ∧ n < 2 ^ (log2 n + 1) :=
  log2Fuel_spec n n hn le_rfl

/-- An integer power of two as a quotient of two natural powers of two. -/
theorem two_zpow_split (s : Int) :
    (((2 ^ s.toNat : Nat) : ℚ) / ((2 ^ (-s).toNat : Nat) : ℚ)) = (2 : ℚ) ^ s := by
  rcases le_total 0 s with h | h
  · have h1 : (-s).toNat = 0 := Int.toNat_eq_zero.2 (by omega)
    have h2 : ((s.toNat : Int)) = s := Int.toNat_of_nonneg h
    rw [h1]
    simp only [pow_zero, Nat.cast_one, div_one, Nat.cast_pow, Nat.cast_ofNat]
    rw [← zpow_natCast, h2]
  · have h1 : s.toNat = 0 := Int.toNat_eq_zero.2 h
    have h2 : (((-s).toNat : Int)) = -s := Int.toNat_of_nonneg (by omega)
    rw [h1]
    simp only [pow_zero, Nat.cast_one, Nat.cast_pow, Nat.cast_ofNat, one_div]
    rw [← zpow_natCast, h2, zpow_neg, inv_inv]

/-- The rounded value is within one half of `n / d`, stated without division. -/
theorem roundTiesEven_spec (n d : Nat) (hd : 0 < d) :
    2 * roundTiesEven n d * d ≤ 2 * n + d ∧ 2 * n ≤ 2 * roundTiesEven n d * d + d := by
  have h1 := Nat.div_add_mod n d
  have h2 := Nat.mod_lt n hd
  unfold roundTiesEven
  simp only
  generalize n / d = q at *
  generalize n % d = r at *
  have e1 : 2 * q * d = 2 * (d * q) := by ring
  have e2 : 2 * (q + 1) * d = 2 * (d * q) + 2 * d := by ring
  split_ifs <;> simp only [e1, e2] <;> omega

/-- Rounding does not pass a natural number that bounds `n / d` from above. -/
theorem roundTiesEven_le (n d k : Nat) (hd : 0 < d) (h : n ≤ k * d) :
    roundTiesEven n d ≤ k := by
  have h1 := (roundTiesEven_spec n d hd).1
  have h2 : 2 * roundTiesEven n d * d < (2 * k + 2) * d := by
    have : (2 * k + 2) * d = 2 * (k * d) + 2 * d := by ring
    omega
  have h3 := Nat.lt_of_mul_lt_mul_right h2
  omega

/-- The rounded value is within one half of the rational `n / d`. -/
theorem roundTiesEven_error (n d : Nat) (hd : 0 < d) :
    |(roundTiesEven n d : ℚ) - (n : ℚ) / d| ≤ 1 / 2 := by
  obtain ⟨h1, h2⟩ := roundTiesEven_spec n d hd
  have hdq : (0 : ℚ) < d := by exact_mod_cast hd
  have h1q : (2 : ℚ) * roundTiesEven n d * d ≤ 2 * n + d := by exact_mod_cast h1
  have h2q : (2 : ℚ) * n ≤ 2 * roundTiesEven n d * d + d := by exact_mod_cast h2
  have hx : (n : ℚ) = (n : ℚ) / d * d := by field_simp
  rw [hx] at h1q h2q
  generalize (n : ℚ) / d = x at h1q h2q
  generalize (roundTiesEven n d : ℚ) = R at h1q h2q
  rw [abs_le]
  constructor
  · have h : (x - 1 / 2) * d ≤ R * d := by linarith
    have := le_of_mul_le_mul_right h hdq
    linarith
  · have h : R * d ≤ (x + 1 / 2) * d := by linarith
    have := le_of_mul_le_mul_right h hdq
    linarith

/-- The exponent returned by `floorLog2` brackets the quotient `n / d`. -/
theorem floorLog2_spec (n d : Nat) (hn : 0 < n) (hd : 0 < d) :
    (2 : ℚ) ^ floorLog2 n d ≤ (n : ℚ) / d ∧ (n : ℚ) / d < (2 : ℚ) ^ (floorLog2 n d + 1) := by
  obtain ⟨ha1, ha2⟩ := log2_spec n hn
  obtain ⟨hb1, hb2⟩ := log2_spec d hd
  have hdq : (0 : ℚ) < d := by exact_mod_cast hd
  have hA1 : (2 : ℚ) ^ ((log2 n : Nat) : Int) ≤ n := by
    rw [zpow_natCast]; exact_mod_cast ha1
  have hA2 : (n : ℚ) < 2 * (2 : ℚ) ^ ((log2 n : Nat) : Int) := by
    rw [zpow_natCast]
    have : n < 2 * 2 ^ log2 n := by rw [pow_succ] at ha2; omega
    exact_mod_cast this
  have hB1 : (2 : ℚ) ^ ((log2 d : Nat) : Int) ≤ d := by
    rw [zpow_natCast]; exact_mod_cast hb1
  have hB2 : (d : ℚ) < 2 * (2 : ℚ) ^ ((log2 d : Nat) : Int) := by
    rw [zpow_natCast]
    have : d < 2 * 2 ^ log2 d := by rw [pow_succ] at hb2; omega
    exact_mod_cast this
  have hApos : (0 : ℚ) < (2 : ℚ) ^ ((log2 n : Nat) : Int) := zpow_pos (by norm_num) _
  have hBpos : (0 : ℚ) < (2 : ℚ) ^ ((log2 d : Nat) : Int) := zpow_pos (by norm_num) _
  generalize hA : (2 : ℚ) ^ ((log2 n : Nat) : Int) = A at hA1 hA2 hApos
  generalize hB : (2 : ℚ) ^ ((log2 d : Nat) : Int) = B at hB1 hB2 hBpos
  have hk : (2 : ℚ) ^ (((log2 n : Nat) : Int) - ((log2 d : Nat) : Int)) = A / B := by
    rw [zpow_sub₀ (by norm_num), hA, hB]
  unfold floorLog2
  simp only
  generalize ((log2 n : Nat) : Int) - ((log2 d : Nat) : Int) = k at hk
  have hsplit := two_zpow_split k
  have hPpos : (0 : ℚ) < ((2 ^ k.toNat : Nat) : ℚ) := by positivity
  have hMpos : (0 : ℚ) < ((2 ^ (-k).toNat : Nat) : ℚ) := by positivity
  have hcond : d * 2 ^ k.toNat ≤ n * 2 ^ (-k).toNat ↔ (2 : ℚ) ^ k ≤ (n : ℚ) / d := by
    rw [← hsplit, div_le_div_iff₀ hMpos hdq]
    constructor
    · intro h
      have : ((d * 2 ^ k.toNat : Nat) : ℚ) ≤ ((n * 2 ^ (-k).toNat : Nat) : ℚ) := by
        exact_mod_cast h
      push_cast at this ⊢
      linarith
    · intro h
      have : ((d * 2 ^ k.toNat : Nat) : ℚ) ≤ ((n * 2 ^ (-k).toNat : Nat) : ℚ) := by
        push_cast at h ⊢
        linarith
      exact_mod_cast this
  split_ifs with hc
  · refine ⟨hcond.1 hc, ?_⟩
    rw [zpow_add_one₀ (by norm_num), hk, div_mul_eq_mul_div, div_lt_div_iff₀ hdq hBpos]
    nlinarith
  · have hlt : (n : ℚ) / d < (2 : ℚ) ^ k := lt_of_not_le (fun h => hc (hcond.2 h))
    refine ⟨?_, by simpa using hlt⟩
    rw [zpow_sub_one₀ (by norm_num), hk, ← div_eq_mul_inv, div_div, div_le_div_iff₀ (by positivity) hdq]
    nlinarith

/-- The value of `ofQuot n d` for positive `n`: a rounded significand times a power of two. -/
theorem ofQuot_toRat (n d : Nat) (hn : 0 < n) :
    (Binary64.ofQuot n d).toRat
      = (roundTiesEven (n * 2 ^ (52 - max (floorLog2 n d) (-1022)).toNat)
            (d * 2 ^ (-(52 - max (floorLog2 n d) (-1022))).toNat) : ℚ)
          * (2 : ℚ) ^ (max (floorLog2 n d) (-1022) - 52) := by
  have h0 : n ≠ 0 := Nat.pos_iff_ne_zero.1 hn
  simp [Binary64.ofQuot, Binary64.toRat, h0]

/-- Scaling numerator and denominator by the two halves of `2 ^ s` scales the quotient by `2 ^ s`. -/
theorem scaled_quot (n d : Nat) (hd : 0 < d) (s : Int) :
    (((n * 2 ^ s.toNat : Nat) : ℚ) / ((d * 2 ^ (-s).toNat : Nat) : ℚ))
      = (n : ℚ) / d * (2 : ℚ) ^ s := by
  have hdq : (d : ℚ) ≠ 0 := by exact_mod_cast (Nat.pos_iff_ne_zero.1 hd)
  have hM : ((2 ^ (-s).toNat : Nat) : ℚ) ≠ 0 := by positivity
  rw [← two_zpow_split s]
  push_cast
  field_simp

/-- The absolute rounding error of `ofQuot` is at most half a unit in the last place. -/
theorem ofQuot_error (n d : Nat) (hn : 0 < n) (hd : 0 < d) :
    |(Binary64.ofQuot n d).toRat - (n : ℚ) / d|
      ≤ (2 : ℚ) ^ (max (floorLog2 n d) (-1022) - 53) := by
  rw [ofQuot_toRat n d hn]
  generalize max (floorLog2 n d) (-1022) = e
  have hD : 0 < d * 2 ^ (-(52 - e)).toNat := Nat.mul_pos hd (by positivity)
  have herr := roundTiesEven_error (n * 2 ^ (52 - e).toNat) (d * 2 ^ (-(52 - e)).toNat) hD
  rw [scaled_quot n d hd] at herr
  generalize (roundTiesEven (n * 2 ^ (52 - e).toNat) (d * 2 ^ (-(52 - e)).toNat) : ℚ) = R at herr
  have hpos : (0 : ℚ) < (2 : ℚ) ^ (e - 52) := zpow_pos (by norm_num) _
  have hinv : (2 : ℚ) ^ (52 - e) * (2 : ℚ) ^ (e - 52) = 1 := by
    rw [← zpow_add₀ (by norm_num : (2 : ℚ) ≠ 0)]; simp
  have hhalf : (2 : ℚ) ^ (e - 53) = (2 : ℚ) ^ (e - 52) * (1 / 2) := by
    have : e - 53 = e - 52 - 1 := by ring
    rw [this, zpow_sub_one₀ (by norm_num)]; norm_num
  have heq : R * (2 : ℚ) ^ (e - 52) - (n : ℚ) / d
      = (R - (n : ℚ) / d * (2 : ℚ) ^ (52 - e)) * (2 : ℚ) ^ (e - 52) := by
    rw [sub_mul, mul_assoc, hinv, mul_one]
  rw [heq, abs_mul, abs_of_pos hpos, hhalf, mul_comm]
  exact mul_le_mul_of_nonneg_left herr hpos.le

/-- In the normal range the relative rounding error of `ofQuot` is at most `2 ^ (-53)`. -/
theorem ofQuot_rel_error (n d : Nat) (hn : 0 < n) (hd : 0 < d)
    (hnormal : (2 : ℚ) ^ (-1022 : Int) ≤ (n : ℚ) / d) :
    |(Binary64.ofQuot n d).toRat - (n : ℚ) / d| ≤ (n : ℚ) / d / 2 ^ 53 := by
  obtain ⟨h1, h2⟩ := floorLog2_spec n d hn hd
  have he : -1022 ≤ floorLog2 n d := by
    have := (zpow_lt_zpow_iff_right₀ (by norm_num : (1 : ℚ) < 2)).1 (lt_of_le_of_lt hnormal h2)
    omega
  have herr := ofQuot_error n d hn hd
  rw [max_eq_left he] at herr
  have hsub : (2 : ℚ) ^ (floorLog2 n d - 53) = (2 : ℚ) ^ floorLog2 n d / 2 ^ 53 := by
    rw [zpow_sub₀ (by norm_num)]; norm_num
  rw [hsub] at herr
  exact herr.trans (div_le_div_of_nonneg_right h1 (by positivity))

/-- Rounding to binary64 does not pass a natural number below `2 ^ 53` that bounds the quotient. -/
theorem ofQuot_le (n d B : Nat) (hd : 0 < d) (hB : B < 2 ^ 53) (h : (n : ℚ) / d ≤ B) :
    (Binary64.ofQuot n d).toRat ≤ B := by
  rcases Nat.eq_zero_or_pos n with h0 | hn
  · subst h0
    simp [Binary64.ofQuot, Binary64.toRat]
  have hdq : (0 : ℚ) < d := by exact_mod_cast hd
  have hnat : n ≤ B * d := by
    rw [div_le_iff₀ hdq] at h
    exact_mod_cast h
  have he : floorLog2 n d ≤ 52 := by
    have h1 := (floorLog2_spec n d hn hd).1
    have h2 : (2 : ℚ) ^ floorLog2 n d < (2 : ℚ) ^ (53 : Int) := by
      have hBq : (B : ℚ) < 9007199254740992 := by
        have : B < 9007199254740992 := by norm_num at hB; exact hB
        exact_mod_cast this
      have h53 : (2 : ℚ) ^ (53 : Int) = 9007199254740992 := by norm_num
      rw [h53]
      linarith
    have := (zpow_lt_zpow_iff_right₀ (by norm_num : (1 : ℚ) < 2)).1 h2
    omega
  rw [ofQuot_toRat n d hn]
  have he2 : max (floorLog2 n d) (-1022) ≤ 52 := max_le he (by norm_num)
  generalize max (floorLog2 n d) (-1022) = e at he2
  have hs : (-(52 - e)).toNat = 0 := Int.toNat_eq_zero.2 (by omega)
  have hs2 : (((52 - e).toNat : Nat) : Int) = 52 - e := Int.toNat_of_nonneg (by omega)
  rw [hs]
  have hR := roundTiesEven_le (n * 2 ^ (52 - e).toNat) (d * 2 ^ 0) (B * 2 ^ (52 - e).toNat)
    (by simpa using hd) (by
      have : B * 2 ^ (52 - e).toNat * (d * 2 ^ 0) = (B * d) * 2 ^ (52 - e).toNat := by ring
      rw [this]
      exact Nat.mul_le_mul_right _ hnat)
  have hRq : (roundTiesEven (n * 2 ^ (52 - e).toNat) (d * 2 ^ 0) : ℚ)
      ≤ (B : ℚ) * (2 : ℚ) ^ (52 - e) := by
    have : (roundTiesEven (n * 2 ^ (52 - e).toNat) (d * 2 ^ 0) : ℚ)
        ≤ ((B * 2 ^ (52 - e).toNat : Nat) : ℚ) := by exact_mod_cast hR
    have hz : (2 : ℚ) ^ (52 - e) = (2 : ℚ) ^ (52 - e).toNat := by
      conv_lhs => rw [← hs2]
      exact zpow_natCast _ _
    rw [hz]
    simpa using this
  have hpos : (0 : ℚ) < (2 : ℚ) ^ (e - 52) := zpow_pos (by norm_num) _
  have hinv : (2 : ℚ) ^ (52 - e) * (2 : ℚ) ^ (e - 52) = 1 := by
    rw [← zpow_add₀ (by norm_num : (2 : ℚ) ≠ 0)]; simp
  calc (roundTiesEven (n * 2 ^ (52 - e).toNat) (d * 2 ^ 0) : ℚ) * (2 : ℚ) ^ (e - 52)
      ≤ (B : ℚ) * (2 : ℚ) ^ (52 - e) * (2 : ℚ) ^ (e - 52) :=
        mul_le_mul_of_nonneg_right hRq hpos.le
    _ = B := by rw [mul_assoc, hinv, mul_one]

/-- The quotient that `numMul` rounds is the exact product. -/
theorem numMul_quot (x : Binary64) (k : Nat) :
    (((x.mant * k * 2 ^ x.exp.toNat : Nat) : ℚ) / ((2 ^ (-x.exp).toNat : Nat) : ℚ))
      = x.toRat * k := by
  have h := scaled_quot (x.mant * k) 1 Nat.one_pos x.exp
  simp only [one_mul, Nat.cast_one, div_one] at h
  rw [h, Binary64.toRat]
  push_cast
  ring

/-- A product bounded by a natural number below `2 ^ 53` stays bounded after rounding. -/
theorem numMul_le (x : Binary64) (k B : Nat) (hB : B < 2 ^ 53) (h : x.toRat * k ≤ B) :
    (numMul x k).toRat ≤ B := by
  unfold numMul
  apply ofQuot_le _ _ _ (by positivity) hB
  rw [numMul_quot]
  exact h

/-- The result of `mathRound` is `floor (x + 1/2)`. -/
theorem mathRound_spec (x : Binary64) :
    (mathRound x : ℚ) ≤ x.toRat + 1 / 2 ∧ x.toRat + 1 / 2 < (mathRound x : ℚ) + 1 := by
  obtain ⟨m, e⟩ := x
  have hsplit := two_zpow_split e
  have hMpos : 0 < 2 * 2 ^ (-e).toNat := by positivity
  have h1 := Nat.div_mul_le_self (2 * (m * 2 ^ e.toNat) + 2 ^ (-e).toNat) (2 * 2 ^ (-e).toNat)
  have h2 := Nat.lt_div_mul_add (a := 2 * (m * 2 ^ e.toNat) + 2 ^ (-e).toNat) hMpos
  simp only [mathRound, Binary64.toRat]
  generalize (2 * (m * 2 ^ e.toNat) + 2 ^ (-e).toNat) / (2 * 2 ^ (-e).toNat) = R at h1 h2
  have hMq : (0 : ℚ) < ((2 ^ (-e).toNat : Nat) : ℚ) := by positivity
  have h1q : (R : ℚ) * (2 * ((2 ^ (-e).toNat : Nat) : ℚ))
      ≤ 2 * (m * ((2 ^ e.toNat : Nat) : ℚ)) + ((2 ^ (-e).toNat : Nat) : ℚ) := by
    exact_mod_cast h1
  have h2q : 2 * ((m : ℚ) * ((2 ^ e.toNat : Nat) : ℚ)) + ((2 ^ (-e).toNat : Nat) : ℚ)
      < (R : ℚ) * (2 * ((2 ^ (-e).toNat : Nat) : ℚ)) + 2 * ((2 ^ (-e).toNat : Nat) : ℚ) := by
    exact_mod_cast h2
  rw [← hsplit]
  generalize ((2 ^ e.toNat : Nat) : ℚ) = P at h1q h2q
  generalize ((2 ^ (-e).toNat : Nat) : ℚ) = M at hMq h1q h2q
  have e1 : (m : ℚ) * (P / M) + 1 / 2 = (2 * (m * P) + M) / (2 * M) := by
    field_simp; ring
  rw [e1]
  constructor
  · rw [le_div_iff₀ (by positivity)]; linarith
  · rw [div_lt_iff₀ (by positivity)]; linarith

/-- The two filters keep at most as many entries as the two wanted lists hold. -/
theorem matches_le (wanted1 wanted2 offered1 offered2 : List String) :
    (wanted1.filter (fun skill => offered2.contains skill)).length
        + (wanted2.filter (fun skill => offered1.contains skill)).length
      ≤ max (wanted1.length + wanted2.length) 1 := by
  have h1 := List.length_filter_le (fun skill => offered2.contains skill) wanted1
  have h2 := List.length_filter_le (fun skill => offered1.contains skill) wanted2
  omega

/-- The percentage `Math.round((m / total) * 100)` is at most 100 whenever
`m ≤ total` and `total` is positive. -/
theorem percentage_le (m total : Nat) (ht : 0 < total) (h : m ≤ total) :
    mathRound (numMul (numDiv m total) 100) ≤ 100 := by
  have htq : (0 : ℚ) < total := by exact_mod_cast ht
  have h1 : (numDiv m total).toRat ≤ (1 : Nat) := by
    apply ofQuot_le m total 1 ht (by norm_num)
    rw [div_le_iff₀ htq]
    have : (m : ℚ) ≤ total := by exact_mod_cast h
    simpa using this
  have h2 : (numMul (numDiv m total) 100).toRat ≤ (100 : Nat) := by
    apply numMul_le _ _ _ (by norm_num)
    push_cast at h1 ⊢
    linarith
  have h3 := (mathRound_spec (numMul (numDiv m total) 100)).1
  have h4 : (mathRound (numMul (numDiv m total) 100) : ℚ) < 101 := by
    push_cast at h2
    linarith
  have h5 : mathRound (numMul (numDiv m total) 100) < 101 := by exact_mod_cast h4
  omega

/-- The percentage `Math.round((m / total) * 100)` is an integer nearest to
the exact value `100 * m / total`, for `m ≤ total < 2 ^ 33`. -/
theorem percentage_nearest (m total : Nat) (ht : 0 < total) (h : m ≤ total)
    (hbound : total < 2 ^ 33) :
    2 * mathRound (numMul (numDiv m total) 100) * total ≤ 200 * m + total
      ∧ 200 * m ≤ 2 * mathRound (numMul (numDiv m total) 100) * total + total := by
  rcases Nat.eq_zero_or_pos m with h0 | hm
  · subst h0
    have : mathRound (numMul (numDiv 0 total) 100) = 0 := by
      simp [numDiv, numMul, Binary64.ofQuot, mathRound]
    rw [this]
    omega
  have htq : (0 : ℚ) < total := by exact_mod_cast ht
  have hmq : (1 : ℚ) ≤ m := by exact_mod_cast hm
  have hmt : (m : ℚ) ≤ total := by exact_mod_cast h
  have hbq : (total : ℚ) < 8589934592 := by
    have : total < 8589934592 := by norm_num at hbound; exact hbound
    exact_mod_cast this
  -- the exact quotient
  have hx1 : (m : ℚ) / total ≤ 1 := (div_le_one htq).2 hmt
  have hx0 : (1 : ℚ) / 8589934592 < (m : ℚ) / total := by
    rw [div_lt_div_iff₀ (by norm_num) htq]
    nlinarith
  have hsmall : (2 : ℚ) ^ (-1022 : Int) ≤ 1 / 8589934592 := by
    have h33 : (1 : ℚ) / 8589934592 = (2 : ℚ) ^ (-33 : Int) := by norm_num
    rw [h33]
    exact zpow_le_zpow_right₀ (by norm_num) (by norm_num)
  -- the rounded quotient
  have hq := ofQuot_rel_error m total hm ht (hsmall.trans hx0.le)
  rw [abs_le] at hq
  obtain ⟨hq1, hq2⟩ := hq
  have hQdef : (numDiv m total).toRat = (Binary64.ofQuot m total).toRat := rfl
  generalize hx : (m : ℚ) / total = x at hx0 hx1 hq1 hq2
  generalize hQ : (Binary64.ofQuot m total).toRat = Q at hq1 hq2 hQdef
  have hxpos : 0 < x := lt_trans (by norm_num) hx0
  have hQpos : 0 < Q := by
    have : x / 2 ^ 53 ≤ x / 2 := div_le_div_of_nonneg_left hxpos.le (by norm_num) (by norm_num)
    linarith
  -- the rounded product
  have hquot := numMul_quot (numDiv m total) 100
  rw [hQdef] at hquot
  have hN : 0 < (numDiv m total).mant * 100 * 2 ^ (numDiv m total).exp.toNat := by
    rcases Nat.eq_zero_or_pos ((numDiv m total).mant * 100 * 2 ^ (numDiv m total).exp.toNat)
      with hz | hp
    · rw [hz] at hquot
      simp only [Nat.cast_zero, zero_div] at hquot
      push_cast at hquot
      linarith
    · exact hp
  have hD : 0 < 2 ^ (-(numDiv m total).exp).toNat := by positivity
  have hy0 : (1 : ℚ) / 8589934592 ≤ Q * 100 := by
    have : x / 2 ^ 53 ≤ x / 2 := div_le_div_of_nonneg_left hxpos.le (by norm_num) (by norm_num)
    linarith
  have hp := ofQuot_rel_error _ _ hN hD (by rw [hquot]; push_cast; exact hsmall.trans hy0)
  rw [hquot] at hp
  have hPdef : (numMul (numDiv m total) 100).toRat
      = (Binary64.ofQuot ((numDiv m total).mant * 100 * 2 ^ (numDiv m total).exp.toNat)
          (2 ^ (-(numDiv m total).exp).toNat)).toRat := rfl
  rw [← hPdef, abs_le] at hp
  obtain ⟨hp1, hp2⟩ := hp
  obtain ⟨hr1, hr2⟩ := mathRound_spec (numMul (numDiv m total) 100)
  generalize (numMul (numDiv m total) 100).toRat = P at hp1 hp2 hr1 hr2
  generalize mathRound (numMul (numDiv m total) 100) = S at hr1 hr2
  push_cast at hp1 hp2
  -- the distance of the product from the exact percentage
  have hu : x / 2 ^ 53 ≤ 1 / 9007199254740992 := by
    rw [div_le_div_iff₀ (by norm_num) (by norm_num)]
    norm_num
    linarith
  have hv : Q * 100 / 2 ^ 53 ≤ 200 / 9007199254740992 := by
    rw [div_le_div_iff₀ (by norm_num) (by norm_num)]
    norm_num
    linarith
  have hclose1 : P - 100 * x ≤ 300 / 9007199254740992 := by linarith
  have hclose2 : 100 * x - P ≤ 300 / 9007199254740992 := by linarith
  have hxm : x * total = m := by rw [← hx]; field_simp
  -- back to integers
  have hgap : (300 : ℚ) / 9007199254740992 * (2 * total) < 1 := by
    have : (300 : ℚ) / 9007199254740992 * (2 * total)
        < 300 / 9007199254740992 * (2 * 8589934592) := by
      apply mul_lt_mul_of_pos_left _ (by norm_num)
      linarith
    refine this.trans ?_
    norm_num
  have hlo : (2 : ℚ) * S * total < 200 * m + total + 1 := by
    have : (2 * (S : ℚ) - 1 - 200 * x) * total ≤ 300 / 9007199254740992 * 2 * total := by
      apply mul_le_mul_of_nonneg_right _ htq.le
      linarith
    have e1 : (2 * (S : ℚ) - 1 - 200 * x) * total
        = 2 * S * total - total - 200 * (x * total) := by ring
    rw [e1, hxm] at this
    linarith
  have hhi : (200 : ℚ) * m < 2 * S * total + total + 1 := by
    have : (200 * x - 2 * (S : ℚ) - 1) * total ≤ 300 / 9007199254740992 * 2 * total := by
      apply mul_le_mul_of_nonneg_right _ htq.le
      linarith
    have e1 : (200 * x - 2 * (S : ℚ) - 1) * total
        = 200 * (x * total) - 2 * S * total - total := by ring
    rw [e1, hxm] at this
    linarith
  have hloN : 2 * S * total < 200 * m + total + 1 := by exact_mod_cast hlo
  have hhiN : 200 * m < 2 * S * total + total + 1 := by exact_mod_cast hhi
  omega

/-- The score of two present profiles in terms of the matches and the denominator of the specification. -/
theorem calculateMatchScore_eq_percentage (self other : Profile) :
    calculateMatchScore (some self) (some other)
      = mathRound (numMul (numDiv (specMatches self other) (specDenominator self other)) 100) := by
  simp [calculateMatchScore, specMatches, specDenominator, List.countP_eq_length_filter]

/-- The number of matches is at most the denominator. -/
theorem specMatches_le (self other : Profile) :
    specMatches self other ≤ specDenominator self other := by
  unfold specMatches specDenominator
  have h1 := List.countP_le_length (fun w => decide (w ∈ orEmpty other.skillsOffered))
    (l := orEmpty self.skillsWanted)
  have h2 := List.countP_le_length (fun w => decide (w ∈ orEmpty self.skillsOffered))
    (l := orEmpty other.skillsWanted)
  omega

/-! ## Lemmas on the `skillCount` object -/

/-- The Boolean test `offers` decides `offersAtLeastOnce`. -/
theorem offers_iff (skill : String) (p : Profile) :
    offers skill p = true ↔ offersAtLeastOnce skill p := by
  unfold offers offersAtLeastOnce
  cases p.skillsOffered <;> simp

/-- The nested loops amount to one loop over all offered entries in iteration order. -/
theorem countSkills_eq_foldl (users : List Profile) :
    countSkills users = (allOffered users).foldl bump [] := by
  unfold countSkills allOffered
  generalize ([] : SkillCount) = init
  induction users generalizing init with
  | nil => rfl
  | cons u us ih =>
    simp only [List.foldl_cons, List.map_cons, List.flatten_cons, List.foldl_append]
    rw [ih]
    have hb : bump = fun acc skill => assign acc skill (readPlusOne acc skill) := rfl
    cases h : u.skillsOffered <;> simp [orEmpty, hb]

/-- The occurrences of a name summed over the profiles are its occurrences among all offered entries. -/
theorem occurrences_eq_count (skill : String) (users : List Profile) :
    occurrences skill users = (allOffered users).count skill := by
  unfold occurrences allOffered
  induction users with
  | nil => rfl
  | cons u us ih => simp [List.count_append, ih]

/-- Overwriting a property keeps the keys and their order. -/
theorem map_fst_updateOwn (key : String) (v : CountValue) (sc : SkillCount) :
    (updateOwn key v sc).map Prod.fst = sc.map Prod.fst := by
  induction sc with
  | nil => rfl
  | cons kv rest ih =>
    obtain ⟨k, w⟩ := kv
    by_cases h : k = key <;> simp [updateOwn, h, ih]

/-- Reading a property after an overwrite. -/
theorem lookup_updateOwn (key k : String) (v : CountValue) (sc : SkillCount) :
    (updateOwn key v sc).lookup k
      = if k = key ∧ (sc.lookup key).isSome then some v else sc.lookup k := by
  induction sc with
  | nil => simp [updateOwn]
  | cons kv rest ih =>
    obtain ⟨k', w⟩ := kv
    by_cases h : k' = key
    · subst h
      by_cases hk : k = k'
      · subst hk; simp [updateOwn]
      · have hb : (k == k') = false := by simpa using hk
        simp [updateOwn, List.lookup_cons, hk, hb]
    · have hne : (key == k') = false := by simpa using fun e => h e.symm
      by_cases hk : k = k'
      · subst hk
        have : ¬ (k = key) := h
        simp [updateOwn, h, this]
      · have hb : (k == k') = false := by simpa using hk
        simp only [updateOwn, h, if_false, List.lookup_cons, hb, hne, ih]

/-- The key `__proto__` is inherited from `Object.prototype`. -/
theorem inheritedText_proto : inheritedText "__proto__" ≠ none := by decide

/-- One pass of the loop body preserves the counting invariant. -/
theorem CountInv.step {sc : SkillCount} {seen : List String} (h : CountInv sc seen)
    (s : String) : CountInv (bump sc s) (seen ++ [s]) := by
  obtain ⟨hnd, hlk⟩ := h
  unfold bump assign
  by_cases hp : s = "__proto__"
  · subst hp
    refine ⟨by simpa using hnd, fun k hk => ?_⟩
    have hne : ¬ ("__proto__" = k) := fun e => inheritedText_proto (e ▸ hk)
    simp [hlk k hk, List.count_append, List.count_cons, hne]
  · simp only [hp, if_false]
    cases hs : sc.lookup s with
    | some v =>
      simp only [Option.isSome_some, if_true]
      refine ⟨by rw [map_fst_updateOwn]; exact hnd, fun k hk => ?_⟩
      rw [lookup_updateOwn, hs]
      by_cases hks : k = s
      · subst hks
        have h1 := hlk k hk
        rw [hs] at h1
        by_cases hc : seen.count k = 0
        · simp [hc] at h1
        · simp only [hc, if_false, Option.some.injEq] at h1
          subst h1
          simp [readPlusOne, hs, List.count_append]
      · have hne : ¬ (s = k) := fun e => hks e.symm
        simp [hks, hlk k hk, List.count_append, List.count_cons, hne]
    | none =>
      simp only [Option.isSome_none, Bool.false_eq_true, if_false]
      have hnotin : s ∉ sc.map Prod.fst := by
        intro hmem
        obtain ⟨p, hp1, hp2⟩ := List.mem_map.1 hmem
        have := List.lookup_eq_none_iff.1 hs p hp1
        simp [hp2] at this
      refine ⟨?_, fun k hk => ?_⟩
      · rw [List.map_append, List.nodup_append]
        refine ⟨hnd, by simp, ?_⟩
        intro a ha hb
        simp at hb
        subst hb
        exact hnotin ha
      · rw [List.lookup_append]
        by_cases hks : k = s
        · subst hks
          have h1 := hlk k hk
          rw [hs] at h1
          have hc : seen.count k = 0 := by
            by_contra hc
            simp [hc] at h1
          simp [hs, readPlusOne, hk, List.count_append, hc]
        · have hne : ¬ (s = k) := fun e => hks e.symm
          have hb : (k == s) = false := by simpa using hks
          rw [hlk k hk]
          simp [List.lookup_cons, hb, List.count_append, List.count_cons, hne]

/-- A run of the loop over a list of skills preserves the counting invariant. -/
theorem CountInv.foldl {sc : SkillCount} {seen : List String} (h : CountInv sc seen)
    (skills : List String) : CountInv (skills.foldl bump sc) (seen ++ skills) := by
  induction skills generalizing sc seen with
  | nil => simpa using h
  | cons s rest ih =>
    have := ih (h.step s)
    simpa using this

/-- The counting invariant holds for the finished `skillCount`. -/
theorem countInv_countSkills (users : List Profile) :
    CountInv (countSkills users) (allOffered users) := by
  rw [countSkills_eq_foldl]
  have h0 : CountInv [] [] := ⟨by simp, fun k _ => by simp⟩
  simpa using h0.foldl (allOffered users)

/-- With distinct keys, a listed property is the one a read finds. -/
theorem lookup_of_mem_of_nodup {sc : SkillCount} (hnd : (sc.map Prod.fst).Nodup)
    {k : String} {v : CountValue} (h : (k, v) ∈ sc) : sc.lookup k = some v := by
  induction sc with
  | nil => simp at h
  | cons kv rest ih =>
    obtain ⟨k', w⟩ := kv
    simp only [List.map_cons, List.nodup_cons] at hnd
    rcases List.mem_cons.1 h with heq | hmem
    · cases heq; simp
    · have hne : ¬ (k = k') := by
        intro e
        subst e
        exact hnd.1 (List.mem_map.2 ⟨(k, v), hmem, rfl⟩)
      have hb : (k == k') = false := by simpa using hne
      simp only [List.lookup_cons, hb]
      exact ih hnd.2 hmem

/-- `Object.entries` lists exactly the own properties. -/
theorem mem_objectEntries {sc : SkillCount} {entry : String × CountValue} :
    entry ∈ objectEntries sc ↔ entry ∈ sc := by
  unfold objectEntries
  simp only [List.mem_append, List.mem_insertionSort, List.mem_filter]
  constructor
  · rintro (h | h) <;> exact h.1
  · intro h
    cases hi : arrayIndex? entry.1 <;> simp [h, hi]

/-- Every entry of the trending list comes from an own property of
`skillCount`, with the mentors filtered from the population. -/
theorem mem_calculateTrendingSkills {users : List Profile} {e : SkillTrend}
    (h : e ∈ calculateTrendingSkills users) :
    ∃ entry ∈ countSkills users,
      e = { skill := entry.1, count := entry.2,
            mentors := users.filter (fun user => offers entry.1 user) } := by
  unfold calculateTrendingSkills at h
  have h1 := List.mem_of_mem_take h
  rw [List.mem_insertionSort, List.mem_map] at h1
  obtain ⟨entry, hmem, rfl⟩ := h1
  exact ⟨entry, mem_objectEntries.1 hmem, rfl⟩

/-- For a skill name that `Object.prototype` does not define, the count of a
listed entry is the number of occurrences of the name in the population. -/
theorem count_of_mem_calculateTrendingSkills {users : List Profile} {e : SkillTrend}
    (h : e ∈ calculateTrendingSkills users) (hk : inheritedText e.skill = none) :
    e.count = CountValue.num (occurrences e.skill users) ∧ 0 < occurrences e.skill users := by
  obtain ⟨⟨k, v⟩, hmem, rfl⟩ := mem_calculateTrendingSkills h
  obtain ⟨hnd, hlk⟩ := countInv_countSkills users
  have h1 := lookup_of_mem_of_nodup hnd hmem
  have h2 := hlk k hk
  rw [h1, ← occurrences_eq_count] at h2
  by_cases hc : occurrences k users = 0
  · simp [hc] at h2
  · simp only [hc, if_false, Option.some.injEq] at h2
    exact ⟨h2, Nat.pos_of_ne_zero hc⟩

theorem occurrences_eq_length_filter (skill : String) (users : List Profile)
    (hnd : ∀ u ∈ users, (orEmpty u.skillsOffered).count skill ≤ 1) :
    occurrences skill users = (users.filter (fun user => offers skill user)).length := by
  unfold occurrences
  induction users with
  | nil => rfl
  | cons u us ih =>
    have hu := hnd u (List.mem_cons_self _ _)
    have ih1 := ih (fun x hx => hnd x (List.mem_cons_of_mem _ hx))
    simp only [List.map_cons, List.sum_cons, ih1, List.filter_cons]
    cases hs : u.skillsOffered with
    | none => simp [offers, hs, orEmpty]
    | some l =>
      simp only [orEmpty, hs] at hu
      by_cases hm : skill ∈ l
      · have h1 : l.count skill = 1 := le_antisymm hu (List.count_pos_iff.2 hm)
        simp [offers, hs, orEmpty, hm, h1, Nat.add_comm]
      · simp [offers, hs, orEmpty, hm, List.count_eq_zero_of_not_mem hm]

/-! ## The match score -/

/-- C1: the match score does not depend on the order of its two arguments,
for present and absent profiles alike. -/
theorem calculateMatchScore_symm (A B : Option Profile) :
    calculateMatchScore A B = calculateMatchScore B A := by
  cases A <;> cases B <;> simp [calculateMatchScore, Nat.add_comm]

/-- C2: the score is a natural number between 0 and 100 for all profiles,
present or absent, with any skill lists. -/
theorem calculateMatchScore_range (A B : Option Profile) :
    0 ≤ calculateMatchScore A B ∧ calculateMatchScore A B ≤ 100 := by
  refine ⟨Nat.zero_le _, ?_⟩
  cases A with
  | none => cases B <;> simp [calculateMatchScore]
  | some a =>
    cases B with
    | none => simp [calculateMatchScore]
    | some b =>
      simp only [calculateMatchScore]
      exact percentage_le _ _ (by omega) (matches_le _ _ _ _)

/-- C3 (counterexample): with 23 matches out of 40 wanted entries the exact
percentage is 57.5, which rounds half-up to 58, but the binary64 product
`(23 / 40) * 100` is `57.49999999999999` and `Math.round` returns 57. -/
theorem calculateMatchScore_ne_exactScore :
    calculateMatchScore
        (some { skillsWanted := some (List.replicate 23 "go" ++ List.replicate 17 "rust") })
        (some { skillsOffered := some ["go"], skillsWanted := some [] }) = 57
      ∧ exactScore
        { skillsWanted := some (List.replicate 23 "go" ++ List.replicate 17 "rust") }
        { skillsOffered := some ["go"], skillsWanted := some [] } = 58 := by
  decide

/-- C3 (amended): for present profiles whose wanted lists are shorter than
`2 ^ 32` (the limit of a JavaScript array), the score is an integer nearest
to the exact percentage `100 * matches / denominator` (it is off by at most
one half), and it is the exact percentage rounded half-up unless that
percentage lies exactly half-way between two integers. -/
theorem calculateMatchScore_nearest (self other : Profile)
    (h1 : (orEmpty self.skillsWanted).length < 2 ^ 32)
    (h2 : (orEmpty other.skillsWanted).length < 2 ^ 32) :
    2 * calculateMatchScore (some self) (some other) * specDenominator self other
        ≤ 200 * specMatches self other + specDenominator self other
      ∧ 200 * specMatches self other
        ≤ 2 * calculateMatchScore (some self) (some other) * specDenominator self other
          + specDenominator self other
      ∧ ((200 * specMatches self other) % (2 * specDenominator self other)
            ≠ specDenominator self other →
          calculateMatchScore (some self) (some other) = exactScore self other) := by
  have hd : 0 < specDenominator self other := by unfold specDenominator; omega
  have hb : specDenominator self other < 2 ^ 33 := by
    unfold specDenominator
    have : (2 : Nat) ^ 33 = 2 ^ 32 + 2 ^ 32 := by norm_num
    omega
  obtain ⟨hlo, hhi⟩ := percentage_nearest _ _ hd (specMatches_le self other) hb
  rw [← calculateMatchScore_eq_percentage] at hlo hhi
  refine ⟨hlo, hhi, fun htie => ?_⟩
  unfold exactScore
  generalize calculateMatchScore (some self) (some other) = S at hlo hhi
  generalize specMatches self other = M at hlo hhi htie
  generalize specDenominator self other = D at hd hlo hhi htie
  symm
  apply Nat.div_eq_of_lt_le
  · calc S * (2 * D) = 2 * S * D := by ring
      _ ≤ 200 * M + D := hlo
  · have hne : 200 * M ≠ 2 * S * D + D := by
      intro heq
      apply htie
      rw [heq, show 2 * S * D + D = D + 2 * D * S by ring, Nat.add_mul_mod_self_left]
      exact Nat.mod_eq_of_lt (by omega)
    have : (S + 1) * (2 * D) = 2 * S * D + 2 * D := by ring
    omega

/-- Witness for C3 (amended): one match out of three wanted entries. -/
theorem calculateMatchScore_nearest_witness :
    2 * calculateMatchScore (some { skillsWanted := some ["go", "rust", "c"] })
          (some { skillsOffered := some ["go"], skillsWanted := some [] })
        * specDenominator { skillsWanted := some ["go", "rust", "c"] }
            { skillsOffered := some ["go"], skillsWanted := some [] }
        ≤ 200 * specMatches { skillsWanted := some ["go", "rust", "c"] }
            { skillsOffered := some ["go"], skillsWanted := some [] }
          + specDenominator { skillsWanted := some ["go", "rust", "c"] }
            { skillsOffered := some ["go"], skillsWanted := some [] }
      ∧ 200 * specMatches { skillsWanted := some ["go", "rust", "c"] }
            { skillsOffered := some ["go"], skillsWanted := some [] }
        ≤ 2 * calculateMatchScore (some { skillsWanted := some ["go", "rust", "c"] })
              (some { skillsOffered := some ["go"], skillsWanted := some [] })
            * specDenominator { skillsWanted := some ["go", "rust", "c"] }
                { skillsOffered := some ["go"], skillsWanted := some [] }
          + specDenominator { skillsWanted := some ["go", "rust", "c"] }
              { skillsOffered := some ["go"], skillsWanted := some [] }
      ∧ ((200 * specMatches { skillsWanted := some ["go", "rust", "c"] }
              { skillsOffered := some ["go"], skillsWanted := some [] })
            % (2 * specDenominator { skillsWanted := some ["go", "rust", "c"] }
                { skillsOffered := some ["go"], skillsWanted := some [] })
            ≠ specDenominator { skillsWanted := some ["go", "rust", "c"] }
                { skillsOffered := some ["go"], skillsWanted := some [] } →
          calculateMatchScore (some { skillsWanted := some ["go", "rust", "c"] })
              (some { skillsOffered := some ["go"], skillsWanted := some [] })
            = exactScore { skillsWanted := some ["go", "rust", "c"] }
                { skillsOffered := some ["go"], skillsWanted := some [] }) :=
  calculateMatchScore_nearest { skillsWanted := some ["go", "rust", "c"] }
    { skillsOffered := some ["go"], skillsWanted := some [] } (by decide) (by decide)

/-- C4: an absent profile on either side gives the score 0, whatever the
other argument is. -/
theorem calculateMatchScore_absent (A B : Option Profile) :
    calculateMatchScore none B = 0 ∧ calculateMatchScore A none = 0 := by
  constructor
  · cases B <;> rfl
  · cases A <;> rfl

/-- C5: when both wanted lists are empty (or missing) the score is 0: the
numerator is 0 and the denominator is floored at 1. -/
theorem calculateMatchScore_no_wanted (A B : Profile)
    (hA : orEmpty A.skillsWanted = []) (hB : orEmpty B.skillsWanted = []) :
    calculateMatchScore (some A) (some B) = 0 := by
  simp only [calculateMatchScore, hA, hB, List.filter_nil, List.length_nil]
  decide

/-- Witness for C5: two profiles with empty wanted lists and non-empty
offered lists. -/
theorem calculateMatchScore_no_wanted_witness :
    calculateMatchScore
      (some { skillsOffered := some ["go", "rust"], skillsWanted := some [] })
      (some { skillsOffered := some ["go"], skillsWanted := some [] }) = 0 :=
  calculateMatchScore_no_wanted _ _ rfl rfl

/-- C6: a missing skill list is read as the empty list: the score of two
present profiles equals the score after every missing list is replaced by
`[]`.  The function is total, so no input makes it fail. -/
theorem calculateMatchScore_fillAbsent (A B : Profile) :
    calculateMatchScore (some A) (some B)
      = calculateMatchScore (some (fillAbsent A)) (some (fillAbsent B)) := by
  simp [calculateMatchScore, fillAbsent, orEmpty]

/-- C7: matching is exact string equality.  The numerator of the score counts
the entries `w` of one wanted list for which some entry of the other offered
list is the identical string, and entries that differ in letter case or in
surrounding blanks do not match (the scores of the examples are 0). -/
theorem calculateMatchScore_exact_equality (A B : Profile) :
    calculateMatchScore (some A) (some B)
        = mathRound (numMul (numDiv
            ((orEmpty A.skillsWanted).countP
                (fun w => decide (∃ o ∈ orEmpty B.skillsOffered, o = w))
              + (orEmpty B.skillsWanted).countP
                (fun w => decide (∃ o ∈ orEmpty A.skillsOffered, o = w)))
            (max ((orEmpty A.skillsWanted).length + (orEmpty B.skillsWanted).length) 1)) 100)
      ∧ calculateMatchScore (some { skillsWanted := some ["go"] })
          (some { skillsOffered := some ["Go"], skillsWanted := some [] }) = 0
      ∧ calculateMatchScore (some { skillsWanted := some ["go"] })
          (some { skillsOffered := some [" go "], skillsWanted := some [] }) = 0
      ∧ calculateMatchScore (some { skillsWanted := some ["go"] })
          (some { skillsOffered := some ["go"], skillsWanted := some [] }) = 100 := by
  refine ⟨?_, by decide, by decide, by decide⟩
  simp [calculateMatchScore, List.countP_eq_length_filter]

/-! ## The trending list -/

/-- C8 (evaluation at the failing input): for the skill name `constructor`
the property read falls through to `Object.prototype.constructor`, so the
stored count is a string and not the number of occurrences, which is 1. -/
theorem calculateTrendingSkills_constructor :
    calculateTrendingSkills [{ skillsOffered := some ["constructor"] }]
        = [{ skill := "constructor",
             count := CountValue.text "function Object() \x7b [native code] \x7d1",
             mentors := [{ skillsOffered := some ["constructor"] }] }]
      ∧ occurrences "constructor" [{ skillsOffered := some ["constructor"] }] = 1 := by
  decide

/-- C9 (counterexample): a profile that lists a skill twice makes the count 2
while the mentor list has one member. -/
theorem calculateTrendingSkills_count_ne_mentors :
    ∃ e ∈ calculateTrendingSkills [{ skillsOffered := some ["x", "x"] }],
      e.count = CountValue.num 2 ∧ e.mentors.length = 1 := by
  decide

/-- C9 (amended): when no profile lists the entry's skill more than once and
the skill name is not a property name of `Object.prototype`, the count of a
listed entry equals the length of its mentor list. -/
theorem calculateTrendingSkills_count_eq_mentors (users : List Profile) (e : SkillTrend)
    (he : e ∈ calculateTrendingSkills users)
    (hdup : ∀ u ∈ users, (orEmpty u.skillsOffered).count e.skill ≤ 1)
    (hk : inheritedText e.skill = none) :
    e.count = CountValue.num e.mentors.length := by
  have h1 := (count_of_mem_calculateTrendingSkills he hk).1
  rw [occurrences_eq_length_filter e.skill users hdup] at h1
  obtain ⟨entry, _, rfl⟩ := mem_calculateTrendingSkills he
  exact h1

/-- Witness for C9 (amended): the population of the specification's example. -/
theorem calculateTrendingSkills_count_eq_mentors_witness :
    (CountValue.num 2 : CountValue)
      = CountValue.num ([({ skillsOffered := some ["x"] } : Profile),
          { skillsOffered := some ["x", "y"] }] : List Profile).length :=
  calculateTrendingSkills_count_eq_mentors
    [{ skillsOffered := some ["x"] }, { skillsOffered := some ["x", "y"] },
     { skillsOffered := some ["y"] }]
    { skill := "x", count := CountValue.num 2,
      mentors := [{ skillsOffered := some ["x"] }, { skillsOffered := some ["x", "y"] }] }
    (by decide) (by decide) (by decide)

/-- C10: the mentor list of a listed entry is the population filtered, in
order, to the profiles whose `skillsOffered` is present and contains the
skill; it is a sub-sequence of the population and holds no profile with a
missing `skillsOffered`. -/
theorem calculateTrendingSkills_mentors (users : List Profile) (e : SkillTrend)
    (he : e ∈ calculateTrendingSkills users) :
    e.mentors = users.filter (fun p => decide (offersAtLeastOnce e.skill p))
      ∧ e.mentors.Sublist users
      ∧ ∀ p ∈ e.mentors, p.skillsOffered ≠ none := by
  obtain ⟨entry, _, rfl⟩ := mem_calculateTrendingSkills he
  have hf : (fun user => offers entry.1 user)
      = fun p => decide (offersAtLeastOnce entry.1 p) := by
    funext p
    rw [Bool.eq_iff_iff, decide_eq_true_iff]
    exact offers_iff entry.1 p
  refine ⟨by simp only [hf], List.filter_sublist _, fun p hp => ?_⟩
  have := (List.mem_filter.1 hp).2
  intro hnone
  simp [offers, hnone] at this

/-- Witness for C10: the entry for `x` in a population with a profile that
has no `skillsOffered`. -/
theorem calculateTrendingSkills_mentors_witness :
    [({ skillsOffered := some ["x"] } : Profile)]
        = [({ skillsOffered := some ["x"] } : Profile), { }, { skillsOffered := some ["y"] }].filter
            (fun p => decide (offersAtLeastOnce "x" p))
      ∧ [({ skillsOffered := some ["x"] } : Profile)].Sublist
          [{ skillsOffered := some ["x"] }, { }, { skillsOffered := some ["y"] }]
      ∧ ∀ p ∈ [({ skillsOffered := some ["x"] } : Profile)], p.skillsOffered ≠ none :=
  calculateTrendingSkills_mentors
    [{ skillsOffered := some ["x"] }, { }, { skillsOffered := some ["y"] }]
    { skill := "x", count := CountValue.num 1, mentors := [{ skillsOffered := some ["x"] }] }
    (by decide)

/-! ## Lemmas on the ranking -/

/-- The trending list is the full ranking cut to five entries. -/
theorem calculateTrendingSkills_eq_take (users : List Profile) :
    calculateTrendingSkills users = (rankedSkills users).take 5 := rfl

/-- The keys of `skillCount` after one pass of the loop body. -/
theorem map_fst_bump (sc : SkillCount) (s : String) :
    (bump sc s).map Prod.fst
      = if s = "__proto__" then sc.map Prod.fst
        else if s ∈ sc.map Prod.fst then sc.map Prod.fst else sc.map Prod.fst ++ [s] := by
  unfold bump assign
  by_cases hp : s = "__proto__"
  · simp [hp]
  · simp only [hp, if_false]
    by_cases hs : s ∈ sc.map Prod.fst
    · have : (sc.lookup s).isSome = true := by
        obtain ⟨p, hp1, hp2⟩ := List.mem_map.1 hs
        exact List.lookup_isSome_iff.2 ⟨p, hp1, by simp [hp2]⟩
      simp [this, hs, map_fst_updateOwn]
    · have : (sc.lookup s).isSome = false := by
        rw [Bool.eq_false_iff]
        intro h
        obtain ⟨p, hp1, hp2⟩ := List.lookup_isSome_iff.1 h
        exact hs (List.mem_map.2 ⟨p, hp1, (by simpa using hp2 : s = p.1).symm⟩)
      simp [this, hs]

/-- The keys of `skillCount` after a run of the loop. -/
theorem map_fst_foldl_bump (skills : List String) (sc : SkillCount) :
    (skills.foldl bump sc).map Prod.fst
      = (skills.filter (fun s => s ≠ "__proto__")).foldl
          (fun acc s => if s ∈ acc then acc else acc ++ [s]) (sc.map Prod.fst) := by
  induction skills generalizing sc with
  | nil => rfl
  | cons s rest ih =>
    rw [List.foldl_cons, ih, map_fst_bump]
    by_cases hp : s = "__proto__"
    · simp [hp]
    · simp [hp]

/-- The own keys of the finished `skillCount`, in creation order, are the
skill names other than `__proto__` in order of first encounter. -/
theorem map_fst_countSkills (users : List Profile) :
    (countSkills users).map Prod.fst
      = firstEncounter ((allOffered users).filter (fun s => s ≠ "__proto__")) := by
  rw [countSkills_eq_foldl, map_fst_foldl_bump]
  rfl

/-- The fold behind `firstEncounter` keeps a duplicate-free list and collects
exactly the names met. -/
theorem foldl_firstEncounter (skills acc : List String) (hacc : acc.Nodup) :
    (skills.foldl (fun acc s => if s ∈ acc then acc else acc ++ [s]) acc).Nodup
      ∧ ∀ s, s ∈ skills.foldl (fun acc s => if s ∈ acc then acc else acc ++ [s]) acc
          ↔ s ∈ acc ∨ s ∈ skills := by
  induction skills generalizing acc with
  | nil => simpa using hacc
  | cons x rest ih =>
    rw [List.foldl_cons]
    by_cases hx : x ∈ acc
    · simp only [hx, if_true]
      obtain ⟨h1, h2⟩ := ih acc hacc
      refine ⟨h1, fun s => ?_⟩
      rw [h2, List.mem_cons]
      constructor
      · rintro (h | h)
        · exact Or.inl h
        · exact Or.inr (Or.inr h)
      · rintro (h | h | h)
        · exact Or.inl h
        · exact Or.inl (h ▸ hx)
        · exact Or.inr h
    · simp only [hx, if_false]
      have hnd : (acc ++ [x]).Nodup := by
        rw [List.nodup_append]
        refine ⟨hacc, by simp, ?_⟩
        intro a ha hb
        simp at hb
        exact hx (hb ▸ ha)
      obtain ⟨h1, h2⟩ := ih (acc ++ [x]) hnd
      refine ⟨h1, fun s => ?_⟩
      rw [h2, List.mem_append, List.mem_singleton, List.mem_cons, or_assoc]

/-- The list of first encounters has no duplicates. -/
theorem nodup_firstEncounter (skills : List String) : (firstEncounter skills).Nodup :=
  (foldl_firstEncounter skills [] List.nodup_nil).1

/-- The list of first encounters holds exactly the names met. -/
theorem mem_firstEncounter (skills : List String) (s : String) :
    s ∈ firstEncounter skills ↔ s ∈ skills := by
  have := (foldl_firstEncounter skills [] List.nodup_nil).2 s
  simpa [firstEncounter] using this

/-- There are as many first encounters as distinct names. -/
theorem length_firstEncounter (skills : List String) :
    (firstEncounter skills).length = skills.dedup.length := by
  apply List.Perm.length_eq
  rw [List.perm_ext_iff_of_nodup (nodup_firstEncounter skills) (List.nodup_dedup skills)]
  intro s
  rw [mem_firstEncounter, List.mem_dedup]

/-- The full ranking is a rearrangement of the entries made from the own
properties of `skillCount`. -/
theorem rankedSkills_perm (users : List Profile) :
    (rankedSkills users).Perm
      ((countSkills users).map
        (fun entry =>
          ({ skill := entry.1, count := entry.2,
             mentors := users.filter (fun user => offers entry.1 user) } : SkillTrend))) := by
  unfold rankedSkills
  refine (List.perm_insertionSort _ _).trans (List.Perm.map _ ?_)
  unfold objectEntries
  refine (List.Perm.append (List.perm_insertionSort _ _) (List.Perm.refl _)).trans ?_
  have h := List.filter_append_perm (fun kv : String × CountValue => (arrayIndex? kv.1).isSome)
    (countSkills users)
  have hf : (fun kv : String × CountValue => (arrayIndex? kv.1).isNone)
      = fun kv => !(arrayIndex? kv.1).isSome := by
    funext kv
    cases arrayIndex? kv.1 <;> rfl
  rw [hf]
  exact h

/-- The full ranking has one entry per own property of `skillCount`. -/
theorem length_rankedSkills (users : List Profile) :
    (rankedSkills users).length
      = (firstEncounter ((allOffered users).filter (fun s => s ≠ "__proto__"))).length := by
  rw [(rankedSkills_perm users).length_eq, List.length_map, ← map_fst_countSkills,
    List.length_map]

/-- The number of entries of the trending list: five, or the number of
distinct offered names other than `__proto__` if that is smaller. -/
theorem length_calculateTrendingSkills (users : List Profile) :
    (calculateTrendingSkills users).length
      = min 5 ((allOffered users).filter (fun s => s ≠ "__proto__")).dedup.length := by
  rw [calculateTrendingSkills_eq_take, List.length_take, length_rankedSkills,
    length_firstEncounter]

/-- When no offered name is inherited from `Object.prototype`, every own
property of `skillCount` holds the number of occurrences of its name. -/
theorem count_of_mem_countSkills (users : List Profile)
    (hplain : ∀ s ∈ allOffered users, inheritedText s = none)
    {entry : String × CountValue} (h : entry ∈ countSkills users) :
    entry.2 = CountValue.num (occurrences entry.1 users) := by
  obtain ⟨k, v⟩ := entry
  have hkey : k ∈ (countSkills users).map Prod.fst := List.mem_map.2 ⟨(k, v), h, rfl⟩
  rw [map_fst_countSkills, mem_firstEncounter] at hkey
  have hk := hplain k (List.mem_filter.1 hkey).1
  obtain ⟨hnd, hlk⟩ := countInv_countSkills users
  have h1 := lookup_of_mem_of_nodup hnd h
  have h2 := hlk k hk
  rw [h1, ← occurrences_eq_count] at h2
  by_cases hc : occurrences k users = 0
  · simp [hc] at h2
  · simp only [hc, if_false, Option.some.injEq] at h2
    exact h2

/-- When no offered name is inherited from `Object.prototype`, every entry of
the full ranking has a Number as its count. -/
theorem count_of_mem_rankedSkills (users : List Profile)
    (hplain : ∀ s ∈ allOffered users, inheritedText s = none)
    {e : SkillTrend} (h : e ∈ rankedSkills users) :
    e.count = CountValue.num (occurrences e.skill users) := by
  have h1 := (rankedSkills_perm users).mem_iff.1 h
  obtain ⟨entry, hmem, rfl⟩ := List.mem_map.1 h1
  exact count_of_mem_countSkills users hplain hmem

/-- When no offered name is inherited from `Object.prototype`, the full
ranking is ordered by count, largest first. -/
theorem rankedSkills_sorted (users : List Profile)
    (hplain : ∀ s ∈ allOffered users, inheritedText s = none) :
    (rankedSkills users).Pairwise (fun a b => countAtLeast a.count b.count) := by
  have hnum : ∀ e ∈ rankedSkills users, e.count = CountValue.num (occurrences e.skill users) :=
    fun e he => count_of_mem_rankedSkills users hplain he
  have hmap := List.map_insertionSort staysBefore (fun x y : Nat => x ≥ y)
    (fun e : SkillTrend => occurrences e.skill users)
    ((objectEntries (countSkills users)).map
      (fun entry =>
        ({ skill := entry.1, count := entry.2,
           mentors := users.filter (fun user => offers entry.1 user) } : SkillTrend)))
    (by
      intro a ha b hb
      have ha2 := hnum a ((List.mem_insertionSort _).2 ha)
      have hb2 := hnum b ((List.mem_insertionSort _).2 hb)
      simp only [staysBefore, compareCount, ha2, hb2, CountValue.toNumber, Option.getD_some]
      omega)
  have hsorted := List.sorted_insertionSort (fun x y : Nat => x ≥ y)
    (((objectEntries (countSkills users)).map
      (fun entry =>
        ({ skill := entry.1, count := entry.2,
           mentors := users.filter (fun user => offers entry.1 user) } : SkillTrend))).map
      (fun e : SkillTrend => occurrences e.skill users))
  rw [← hmap] at hsorted
  have hp := List.pairwise_map.1 hsorted
  refine List.Pairwise.imp_of_mem ?_ hp
  intro a b ha hb hab
  rw [hnum a ha, hnum b hb]
  exact hab

/-- A list that is pairwise ordered by count has non-increasing adjacent
counts. -/
theorem countsNonIncreasing_of_pairwise :
    ∀ (l : List SkillTrend), l.Pairwise (fun a b => countAtLeast a.count b.count) →
      countsNonIncreasing l
  | [], _ => trivial
  | [_], _ => trivial
  | a :: b :: rest, h => by
    obtain ⟨h1, h2⟩ := List.pairwise_cons.1 h
    exact ⟨h1 b (List.mem_cons_self _ _), countsNonIncreasing_of_pairwise (b :: rest) h2⟩

/-- When no offered name is inherited from `Object.prototype`, the trending
list is ordered by count, largest first. -/
theorem calculateTrendingSkills_sorted_of_plain (users : List Profile)
    (hplain : ∀ s ∈ allOffered users, inheritedText s = none) :
    countsNonIncreasing (calculateTrendingSkills users) := by
  apply countsNonIncreasing_of_pairwise
  rw [calculateTrendingSkills_eq_take]
  exact (rankedSkills_sorted users hplain).sublist (List.take_sublist _ _)

/-- In a duplicate-free list, a pair in order whose second member lies in a
leading segment lies in that segment in the same order. -/
theorem pair_sublist_take {α : Type} {l : List α} (hnd : l.Nodup) {a b : α} (n : Nat)
    (h : [a, b].Sublist l) (hb : b ∈ l.take n) : [a, b].Sublist (l.take n) := by
  have hdisj : (l.take n).Disjoint (l.drop n) := by
    apply List.disjoint_of_nodup_append
    rw [List.take_append_drop]
    exact hnd
  rw [← List.take_append_drop n l, List.sublist_append_iff] at h
  obtain ⟨l₁, l₂, heq, h1, h2⟩ := h
  rcases l₁ with _ | ⟨x, _ | ⟨y, t⟩⟩
  · simp only [List.nil_append] at heq
    subst heq
    exact absurd (h2.subset (by simp)) (fun hmem => hdisj hb hmem)
  · simp only [List.singleton_append, List.cons.injEq] at heq
    obtain ⟨_, heq2⟩ := heq
    subst heq2
    exact absurd (h2.subset (by simp)) (fun hmem => hdisj hb hmem)
  · simp only [List.cons_append, List.cons.injEq] at heq
    obtain ⟨rfl, rfl, heq3⟩ := heq
    have ht : t = [] := by
      cases t with
      | nil => rfl
      | cons z zs => simp at heq3
    subst ht
    exact h1

/-- The entries of the full ranking are pairwise different: they have
different skill names. -/
theorem nodup_rankedSkills (users : List Profile) : (rankedSkills users).Nodup := by
  rw [(rankedSkills_perm users).nodup_iff]
  apply List.Nodup.of_map (fun e : SkillTrend => e.skill)
  rw [List.map_map]
  exact (countInv_countSkills users).1

/-- Two own properties of `skillCount` with the same key are the same. -/
theorem eq_of_mem_countSkills (users : List Profile) {x y : String × CountValue}
    (hx : x ∈ countSkills users) (hy : y ∈ countSkills users) (h : x.1 = y.1) : x = y := by
  obtain ⟨hnd, _⟩ := countInv_countSkills users
  obtain ⟨k, v⟩ := x
  obtain ⟨k2, w⟩ := y
  simp only at h
  subst h
  have h1 := lookup_of_mem_of_nodup hnd hx
  have h2 := lookup_of_mem_of_nodup hnd hy
  rw [h1] at h2
  simp only [Option.some.injEq] at h2
  rw [h2]

/-- Entries with equal counts may stay in their order under the comparator. -/
theorem staysBefore_of_count_eq {a b : SkillTrend} (h : a.count = b.count) : staysBefore a b := by
  unfold staysBefore compareCount
  rw [h]
  cases b.count <;> simp [CountValue.toNumber]

/-! ## The ranking: order, ties, length and limit -/

/-- C11 (evaluation at the failing input): with the skill name `constructor`
in the population the comparator yields `NaN` for every pair that involves
its entry, the three entries stay in creation order, and the counts 1,
a string, 2 are not non-increasing. -/
theorem calculateTrendingSkills_not_sorted :
    calculateTrendingSkills
        [{ skillsOffered := some ["a"] }, { skillsOffered := some ["constructor"] },
         { skillsOffered := some ["b", "b"] }]
      = [{ skill := "a", count := CountValue.num 1,
           mentors := [{ skillsOffered := some ["a"] }] },
         { skill := "constructor",
           count := CountValue.text "function Object() \x7b [native code] \x7d1",
           mentors := [{ skillsOffered := some ["constructor"] }] },
         { skill := "b", count := CountValue.num 2,
           mentors := [{ skillsOffered := some ["b", "b"] }] }]
      ∧ ¬ countsNonIncreasing
          (calculateTrendingSkills
            [{ skillsOffered := some ["a"] }, { skillsOffered := some ["constructor"] },
             { skillsOffered := some ["b", "b"] }]) := by
  decide

/-- C12 (counterexample): the names `10` and `2` are array-index keys, which
`Object.entries` lists in ascending numeric order; with equal counts `2`
comes first although `10` was met first. -/
theorem calculateTrendingSkills_numeric_names :
    calculateTrendingSkills [{ skillsOffered := some ["10", "2"] }]
      = [{ skill := "2", count := CountValue.num 1,
           mentors := [{ skillsOffered := some ["10", "2"] }] },
         { skill := "10", count := CountValue.num 1,
           mentors := [{ skillsOffered := some ["10", "2"] }] }]
      ∧ firstEncounter (allOffered [{ skillsOffered := some ["10", "2"] }]) = ["10", "2"] := by
  decide

/-- C12 (amended): in a population without names inherited from
`Object.prototype`, two listed entries with equal counts whose skill names
are not array-index keys appear in the order in which iterating the
population first meets their names. -/
theorem calculateTrendingSkills_tie_order (users : List Profile) (a b : SkillTrend)
    (hplain : ∀ s ∈ allOffered users, inheritedText s = none)
    (ha : a ∈ calculateTrendingSkills users) (hb : b ∈ calculateTrendingSkills users)
    (hcount : a.count = b.count)
    (hia : arrayIndex? a.skill = none) (hib : arrayIndex? b.skill = none)
    (henc : [a.skill, b.skill].Sublist (firstEncounter (allOffered users))) :
    [a, b].Sublist (calculateTrendingSkills users) := by
  have hfilter : (allOffered users).filter (fun s => s ≠ "__proto__") = allOffered users := by
    rw [List.filter_eq_self]
    intro s hs
    have := hplain s hs
    simp only [ne_eq, decide_not, Bool.not_eq_true', decide_eq_false_iff_not]
    intro e
    exact inheritedText_proto (e ▸ this)
  rw [← hfilter, ← map_fst_countSkills, List.sublist_map_iff] at henc
  obtain ⟨l, hl, hmap⟩ := henc
  obtain ⟨ea, hea, rfl⟩ := mem_calculateTrendingSkills ha
  obtain ⟨eb, heb, rfl⟩ := mem_calculateTrendingSkills hb
  rcases l with _ | ⟨x, _ | ⟨y, _ | ⟨z, t⟩⟩⟩ <;> simp at hmap
  obtain ⟨hx, hy⟩ := hmap
  have hxa : x = ea :=
    eq_of_mem_countSkills users (hl.subset (by simp)) hea hx.symm
  have hyb : y = eb :=
    eq_of_mem_countSkills users (hl.subset (by simp)) heb hy.symm
  subst hxa hyb
  have hnamed : [x, y].Sublist
      ((countSkills users).filter (fun kv => (arrayIndex? kv.1).isNone)) := by
    have := hl.filter (fun kv : String × CountValue => (arrayIndex? kv.1).isNone)
    simpa [List.filter_cons, hia, hib] using this
  have hentries : [x, y].Sublist (objectEntries (countSkills users)) :=
    hnamed.trans (List.sublist_append_right _ _)
  have hmapped := hentries.map
    (fun entry : String × CountValue =>
      ({ skill := entry.1, count := entry.2,
         mentors := users.filter (fun user => offers entry.1 user) } : SkillTrend))
  have hranked := List.pair_sublist_insertionSort (r := staysBefore)
    (staysBefore_of_count_eq hcount) hmapped
  rw [calculateTrendingSkills_eq_take]
  exact pair_sublist_take (nodup_rankedSkills users) 5 hranked hb

/-- Witness for C12 (amended): the example of the specification, where `x`
and `y` both have count 2 and `x` is met first. -/
theorem calculateTrendingSkills_tie_order_witness :
    [({ skill := "x", count := CountValue.num 2,
        mentors := [{ skillsOffered := some ["x"] }, { skillsOffered := some ["x", "y"] }] }
        : SkillTrend),
     { skill := "y", count := CountValue.num 2,
       mentors := [{ skillsOffered := some ["x", "y"] }, { skillsOffered := some ["y"] }] }].Sublist
      (calculateTrendingSkills
        [{ skillsOffered := some ["x"] }, { skillsOffered := some ["x", "y"] },
         { skillsOffered := some ["y"] }]) :=
  calculateTrendingSkills_tie_order
    [{ skillsOffered := some ["x"] }, { skillsOffered := some ["x", "y"] },
     { skillsOffered := some ["y"] }]
    { skill := "x", count := CountValue.num 2,
      mentors := [{ skillsOffered := some ["x"] }, { skillsOffered := some ["x", "y"] }] }
    { skill := "y", count := CountValue.num 2,
      mentors := [{ skillsOffered := some ["x", "y"] }, { skillsOffered := some ["y"] }] }
    (by decide) (by decide) (by decide) rfl (by decide) (by decide) (by decide)

/-- C13 (evaluation at the failing input): the name `__proto__` never becomes
an own property of `skillCount`, so a population whose only offered skill is
`__proto__` has one distinct skill and an empty trending list.  The empty
population gives the empty list and seven distinct skills give five entries. -/
theorem calculateTrendingSkills_proto :
    calculateTrendingSkills [{ skillsOffered := some ["__proto__"] }] = []
      ∧ distinctOffered [{ skillsOffered := some ["__proto__"] }] = 1
      ∧ calculateTrendingSkills [] = []
      ∧ distinctOffered sevenSkillUsers = 7
      ∧ (calculateTrendingSkills sevenSkillUsers).length = 5 := by
  decide

/-- C14 (counterexample): called with the limit 2 on seven distinct skills
the function still returns five entries. -/
theorem calculateTrendingSkillsWith_ignores_limit :
    (calculateTrendingSkillsWith sevenSkillUsers (some 2)).length = 5
      ∧ min 2 (distinctOffered sevenSkillUsers) = 2 := by
  decide

/-- C14 (amended): the limit is the constant 5 of the source.  Whatever
second argument is passed, the result is the first five entries of the full
ranking, or all of them if there are fewer. -/
theorem calculateTrendingSkillsWith_eq_take (users : List Profile) (topN : Option Nat) :
    calculateTrendingSkillsWith users topN = (rankedSkills users).take 5
      ∧ (calculateTrendingSkillsWith users topN).length = min 5 (rankedSkills users).length := by
  refine ⟨rfl, ?_⟩
  unfold calculateTrendingSkillsWith
  rw [calculateTrendingSkills_eq_take, List.length_take]

/-! ## Lemmas on the recommendation list -/

/-- The filter of `RecommendedFriends` keeps a user exactly when its `uid`
differs from `currentUser?.uid` and is the `id` of no friend. -/
theorem filter_condition_iff (currentUser : Option Profile) (friends : List Profile)
    (u : Profile) :
    (u.uid != optionalUid currentUser && !(friends.map (fun f => f.id)).contains u.uid) = true
      ↔ u.uid ≠ optionalUid currentUser ∧ ¬ isFriend friends u := by
  unfold isFriend
  simp only [Bool.and_eq_true, bne_iff_ne, Bool.not_eq_true', List.contains_eq_any_beq,
    List.any_eq_false, List.mem_map, beq_iff_eq, forall_exists_index, and_imp,
    forall_apply_eq_imp_iff₂, ne_eq, not_exists, not_and]

/-- A user that passes the filter is not the current user. -/
theorem not_isCurrentUser_of_ne (currentUser : Option Profile) (u : Profile)
    (h : u.uid ≠ optionalUid currentUser) : ¬ isCurrentUser currentUser u := by
  cases currentUser with
  | none => exact fun h => h
  | some c => exact h

/-- For a present current user, or for a user that has a `uid`, not being the
current user means passing the first test of the filter. -/
theorem ne_of_not_isCurrentUser (currentUser : Option Profile) (u : Profile)
    (hu : currentUser ≠ none ∨ u.uid ≠ none) (h : ¬ isCurrentUser currentUser u) :
    u.uid ≠ optionalUid currentUser := by
  cases currentUser with
  | none =>
    rcases hu with hu | hu
    · exact absurd rfl hu
    · exact hu
  | some c => exact h

/-- The list `potentialFriends` is the sorted list of scored candidates cut
to three entries. -/
theorem potentialFriends_eq (users : List Profile) (currentUser : Option Profile)
    (friends : List Profile) :
    potentialFriends users currentUser friends
      = ((((users.filter
            (fun user => user.uid != optionalUid currentUser
              && !(friends.map (fun f => f.id)).contains user.uid)).map
          (fun user =>
            ({ user := user, matchScore := calculateMatchScore currentUser (some user) }
              : Recommendation))).insertionSort scoreStaysBefore).take 3) := rfl

/-- Every entry of `potentialFriends` is a user that passed the filter,
paired with its match score. -/
theorem mem_potentialFriends {users : List Profile} {currentUser : Option Profile}
    {friends : List Profile} {e : Recommendation}
    (h : e ∈ potentialFriends users currentUser friends) :
    e.user ∈ users
      ∧ e.user.uid ≠ optionalUid currentUser ∧ ¬ isFriend friends e.user
      ∧ e.matchScore = calculateMatchScore currentUser (some e.user) := by
  rw [potentialFriends_eq] at h
  have h1 := List.mem_of_mem_take h
  rw [List.mem_insertionSort, List.mem_map] at h1
  obtain ⟨u, hu, rfl⟩ := h1
  obtain ⟨hmem, hcond⟩ := List.mem_filter.1 hu
  obtain ⟨hc1, hc2⟩ := (filter_condition_iff currentUser friends u).1 hcond
  exact ⟨hmem, hc1, hc2, rfl⟩

/-- A sort by the score comparator yields a list ordered by score, largest
first. -/
theorem insertionSort_scoreStaysBefore_sorted (l : List Recommendation) :
    (l.insertionSort scoreStaysBefore).Pairwise (fun a b => b.matchScore ≤ a.matchScore) := by
  haveI : IsTotal Recommendation scoreStaysBefore :=
    ⟨fun a b => by unfold scoreStaysBefore compareScore; omega⟩
  haveI : IsTrans Recommendation scoreStaysBefore :=
    ⟨fun a b c => by unfold scoreStaysBefore compareScore; omega⟩
  have h := List.sorted_insertionSort scoreStaysBefore l
  refine List.Pairwise.imp ?_ h
  intro a b hab
  unfold scoreStaysBefore compareScore at hab
  omega

/-- The sort is stable: the entries with a given score keep the order they
had before the sort. -/
theorem insertionSort_scoreStaysBefore_stable (l : List Recommendation) (s : Nat) :
    (l.insertionSort scoreStaysBefore).filter (fun e => e.matchScore = s)
      = l.filter (fun e => e.matchScore = s) := by
  have hpw : (l.filter (fun e => decide (e.matchScore = s))).Pairwise scoreStaysBefore := by
    apply List.pairwise_of_forall_mem_list
    intro a ha b hb
    have ha2 := (List.mem_filter.1 ha).2
    have hb2 := (List.mem_filter.1 hb).2
    simp only [decide_eq_true_eq] at ha2 hb2
    unfold scoreStaysBefore compareScore
    omega
  have hsub := List.sublist_insertionSort (r := scoreStaysBefore) hpw (List.filter_sublist l)
  have hsub2 := hsub.filter (fun e => decide (e.matchScore = s))
  rw [List.filter_filter] at hsub2
  simp only [Bool.and_self] at hsub2
  have hlen := ((List.perm_insertionSort scoreStaysBefore l).filter
    (fun e => decide (e.matchScore = s))).length_eq
  exact (hsub2.eq_of_length hlen.symm).symm

/-! ## The recommendation list -/

/-- C15: no entry of the recommendation list is the current user (its `uid`
differs from the current user's `uid`) and none is an existing friend (its
`uid` is the `id` of no element of the friends list). -/
theorem potentialFriends_excludes (users : List Profile) (currentUser : Option Profile)
    (friends : List Profile) (e : Recommendation)
    (he : e ∈ potentialFriends users currentUser friends) :
    ¬ isCurrentUser currentUser e.user ∧ ¬ isFriend friends e.user := by
  obtain ⟨_, h1, h2, _⟩ := mem_potentialFriends he
  exact ⟨not_isCurrentUser_of_ne currentUser e.user h1, h2⟩

/-- Witness for C15: the example of the specification, current user 1, users
1, 2, 3 and friend 2; the list consists of user 3. -/
theorem potentialFriends_excludes_witness :
    potentialFriends [{ uid := some "1" }, { uid := some "2" }, { uid := some "3" }]
        (some { uid := some "1" }) [{ id := some "2" }]
      = [{ user := { uid := some "3" }, matchScore := 0 }]
    ∧ ¬ isCurrentUser (some { uid := some "1" }) { uid := some "3" }
    ∧ ¬ isFriend [{ id := some "2" }] { uid := some "3" } :=
  ⟨by decide,
   potentialFriends_excludes [{ uid := some "1" }, { uid := some "2" }, { uid := some "3" }]
    (some { uid := some "1" }) [{ id := some "2" }]
    { user := { uid := some "3" }, matchScore := 0 } (by decide)⟩

/-- C16: every entry of the recommendation list is a profile of the
population, carried over whole, together with a `matchScore` equal to
`calculateMatchScore(currentUser, profile)`. -/
theorem potentialFriends_entry (users : List Profile) (currentUser : Option Profile)
    (friends : List Profile) (e : Recommendation)
    (he : e ∈ potentialFriends users currentUser friends) :
    e.user ∈ users ∧ e.matchScore = calculateMatchScore currentUser (some e.user) := by
  obtain ⟨h1, _, _, h2⟩ := mem_potentialFriends he
  exact ⟨h1, h2⟩

/-- Witness for C16: a user that offers what the current user wants. -/
theorem potentialFriends_entry_witness :
    ({ uid := some "2", skillsOffered := some ["Go"], skillsWanted := some [] } : Profile)
        ∈ [({ uid := some "2", skillsOffered := some ["Go"], skillsWanted := some [] } : Profile)]
      ∧ 100 = calculateMatchScore (some { uid := some "1", skillsWanted := some ["Go"] })
          (some { uid := some "2", skillsOffered := some ["Go"], skillsWanted := some [] }) :=
  potentialFriends_entry
    [{ uid := some "2", skillsOffered := some ["Go"], skillsWanted := some [] }]
    (some { uid := some "1", skillsWanted := some ["Go"] }) []
    { user := { uid := some "2", skillsOffered := some ["Go"], skillsWanted := some [] },
      matchScore := 100 }
    (by decide)

/-- C17: the recommendation list is ordered by `matchScore`, largest first,
and for every score the entries with that score are in population order. -/
theorem potentialFriends_sorted_stable (users : List Profile) (currentUser : Option Profile)
    (friends : List Profile) :
    (potentialFriends users currentUser friends).Pairwise
        (fun a b => b.matchScore ≤ a.matchScore)
      ∧ ∀ s : Nat,
        (((potentialFriends users currentUser friends).filter
            (fun e => e.matchScore = s)).map (fun e => e.user)).Sublist users := by
  rw [potentialFriends_eq]
  constructor
  · exact (insertionSort_scoreStaysBefore_sorted _).sublist (List.take_sublist _ _)
  · intro s
    have h1 := List.Sublist.filter (fun e : Recommendation => decide (e.matchScore = s))
      (List.take_sublist 3
        (((users.filter
            (fun user => user.uid != optionalUid currentUser
              && !(friends.map (fun f => f.id)).contains user.uid)).map
          (fun user =>
            ({ user := user, matchScore := calculateMatchScore currentUser (some user) }
              : Recommendation))).insertionSort scoreStaysBefore))
    rw [insertionSort_scoreStaysBefore_stable] at h1
    have h2 := (h1.trans (List.filter_sublist _)).map (fun e : Recommendation => e.user)
    rw [List.map_map] at h2
    have hid : ((fun e : Recommendation => e.user) ∘ fun user : Profile =>
        ({ user := user, matchScore := calculateMatchScore currentUser (some user) }
          : Recommendation)) = id := rfl
    rw [hid, List.map_id] at h2
    exact h2.trans (List.filter_sublist _)

/-- C18 as stated fails: with no current user, a population record without a
`uid` is neither the current user nor a friend, yet the filter drops it,
because `user.uid !== currentUser?.uid` compares `undefined` with `undefined`.
For the population `[{name: "a"}]` the list is empty while `c` is 1. -/
theorem potentialFriends_length_without_uid :
    potentialFriends [{ name := some "a" }] none [] = []
      ∧ ([{ name := some "a" }] : List Profile).countP
          (fun u => decide (¬ isCurrentUser none u ∧ ¬ isFriend [] u)) = 1
      ∧ (potentialFriends [{ name := some "a" }] none []).length
          ≠ min 3 (([{ name := some "a" }] : List Profile).countP
              (fun u => decide (¬ isCurrentUser none u ∧ ¬ isFriend [] u))) := by
  decide

/-- C18, amended: the recommendation list has `min(3, c)` entries, `c` being
the number of population profiles that are neither the current user nor an
existing friend, provided that, when there is no current user, every
population profile has a `uid` (as every record of the `listenToUsers` feed
has).  With a current user the statement holds for every population. -/
theorem potentialFriends_length (users : List Profile) (currentUser : Option Profile)
    (friends : List Profile) (huid : currentUser = none → ∀ u ∈ users, u.uid ≠ none) :
    (potentialFriends users currentUser friends).length
      = min 3 (users.countP
          (fun u => decide (¬ isCurrentUser currentUser u ∧ ¬ isFriend friends u))) := by
  rw [potentialFriends_eq, List.length_take, List.length_insertionSort, List.length_map,
    List.countP_eq_length_filter]
  congr 2
  apply List.filter_congr
  intro u hu
  rw [Bool.eq_iff_iff, filter_condition_iff, decide_eq_true_iff]
  constructor
  · rintro ⟨h1, h2⟩
    exact ⟨not_isCurrentUser_of_ne currentUser u h1, h2⟩
  · rintro ⟨h1, h2⟩
    refine ⟨ne_of_not_isCurrentUser currentUser u ?_ h1, h2⟩
    by_cases hcu : currentUser = none
    · exact Or.inr (huid hcu u hu)
    · exact Or.inl hcu

/-- Witness for C18: no current user, a population of five records that all
have a `uid`, one of them a friend: four candidates, three entries.  With
current user 1 and a record without `uid` in the population, three candidates
and three entries. -/
theorem potentialFriends_length_witness :
    ((none : Option Profile) = none →
        ∀ u ∈ ([{ uid := some "1" }, { uid := some "2" }, { uid := some "3" },
          { uid := some "4" }, { uid := some "5" }] : List Profile), u.uid ≠ none)
      ∧ (potentialFriends
          [{ uid := some "1" }, { uid := some "2" }, { uid := some "3" }, { uid := some "4" },
           { uid := some "5" }]
          none [{ id := some "2" }]).length
        = min 3 (([{ uid := some "1" }, { uid := some "2" }, { uid := some "3" },
            { uid := some "4" }, { uid := some "5" }] : List Profile).countP
            (fun u => decide (¬ isCurrentUser none u ∧ ¬ isFriend [{ id := some "2" }] u)))
      ∧ ([{ uid := some "1" }, { uid := some "2" }, { uid := some "3" },
            { uid := some "4" }, { uid := some "5" }] : List Profile).countP
            (fun u => decide (¬ isCurrentUser none u ∧ ¬ isFriend [{ id := some "2" }] u)) = 4
      ∧ (potentialFriends
          [{ uid := some "1" }, { uid := some "2" }, { name := some "a" }, { uid := some "4" },
           { uid := some "5" }]
          (some { uid := some "1" }) [{ id := some "2" }]).length
        = min 3 (([{ uid := some "1" }, { uid := some "2" }, { name := some "a" },
            { uid := some "4" }, { uid := some "5" }] : List Profile).countP
            (fun u => decide (¬ isCurrentUser (some { uid := some "1" }) u
              ∧ ¬ isFriend [{ id := some "2" }] u))) :=
  ⟨by decide,
   potentialFriends_length
    [{ uid := some "1" }, { uid := some "2" }, { uid := some "3" }, { uid := some "4" },
     { uid := some "5" }]
    none [{ id := some "2" }] (by decide),
   by decide,
   potentialFriends_length
    [{ uid := some "1" }, { uid := some "2" }, { name := some "a" }, { uid := some "4" },
     { uid := some "5" }]
    (some { uid := some "1" }) [{ id := some "2" }] (by decide)⟩

/-- C19 as stated fails: without a current user a population record that has
no `uid` is dropped by the filter (`undefined !== undefined` is false),
although it is no friend.  For the population `[{name: "a"}, {uid: "2"}]` and no
friends the list holds the second record only. -/
theorem potentialFriends_absent_without_uid :
    potentialFriends [{ name := some "a" }, { uid := some "2" }] none []
        = [{ user := { uid := some "2" }, matchScore := 0 }]
      ∧ potentialFriends [{ name := some "a" }, { uid := some "2" }] none []
        ≠ ((([{ name := some "a" }, { uid := some "2" }] : List Profile).filter
              (fun u => decide (¬ isFriend [] u))).take 3).map
            (fun u => ({ user := u, matchScore := 0 } : Recommendation)) := by
  decide

/-- C19, amended: without a current user, and with every population profile
having a `uid` (as every record of the `listenToUsers` feed has), the
recommendation list is the first three profiles (or all, if fewer) that are
not existing friends, in population order, each with `matchScore` 0.  The
function is total, so no failure occurs. -/
theorem potentialFriends_absent (users friends : List Profile)
    (huid : ∀ u ∈ users, u.uid ≠ none) :
    potentialFriends users none friends
      = ((users.filter (fun u => decide (¬ isFriend friends u))).take 3).map
          (fun u => ({ user := u, matchScore := 0 } : Recommendation)) := by
  rw [potentialFriends_eq]
  have hfilter : users.filter
      (fun user => user.uid != optionalUid none
        && !(friends.map (fun f => f.id)).contains user.uid)
      = users.filter (fun u => decide (¬ isFriend friends u)) := by
    apply List.filter_congr
    intro u hu
    rw [Bool.eq_iff_iff, filter_condition_iff, decide_eq_true_iff]
    constructor
    · exact fun h => h.2
    · exact fun h => ⟨huid u hu, h⟩
  have hscore : (fun user : Profile =>
      ({ user := user, matchScore := calculateMatchScore none (some user) } : Recommendation))
      = fun u => ({ user := u, matchScore := 0 } : Recommendation) := rfl
  rw [hfilter, hscore, List.map_take]
  congr 1
  apply List.Sorted.insertionSort_eq
  apply List.pairwise_of_forall_mem_list
  intro a ha b hb
  obtain ⟨_, _, rfl⟩ := List.mem_map.1 ha
  obtain ⟨_, _, rfl⟩ := List.mem_map.1 hb
  unfold scoreStaysBefore compareScore
  simp

/-- Witness for C19: five users that all have a `uid`, the second of them a
friend; the list is users 1, 3 and 4, each with score 0. -/
theorem potentialFriends_absent_witness :
    (∀ u ∈ ([{ uid := some "1" }, { uid := some "2" }, { uid := some "3" },
        { uid := some "4" }, { uid := some "5" }] : List Profile), u.uid ≠ none)
      ∧ potentialFriends
          [{ uid := some "1" }, { uid := some "2" }, { uid := some "3" }, { uid := some "4" },
           { uid := some "5" }]
          none [{ id := some "2" }]
        = ((([{ uid := some "1" }, { uid := some "2" }, { uid := some "3" },
            { uid := some "4" }, { uid := some "5" }] : List Profile).filter
              (fun u => decide (¬ isFriend [{ id := some "2" }] u))).take 3).map
            (fun u => ({ user := u, matchScore := 0 } : Recommendation))
      ∧ potentialFriends
          [{ uid := some "1" }, { uid := some "2" }, { uid := some "3" }, { uid := some "4" },
           { uid := some "5" }]
          none [{ id := some "2" }]
        = [{ user := { uid := some "1" }, matchScore := 0 },
           { user := { uid := some "3" }, matchScore := 0 },
           { user := { uid := some "4" }, matchScore := 0 }] :=
  ⟨by decide,
   potentialFriends_absent
    [{ uid := some "1" }, { uid := some "2" }, { uid := some "3" }, { uid := some "4" },
     { uid := some "5" }]
    [{ id := some "2" }] (by decide),
   by decide⟩

/-- C20: the recommendation list is a top three.  A population profile that
is neither the current user nor a friend and is not listed has a score no
larger than the score of every listed entry, and within the list an entry
never precedes one with a larger score. -/
theorem potentialFriends_top (users : List Profile) (currentUser : Option Profile)
    (friends : List Profile) (u : Profile) (hu : u ∈ users)
    (hself : ¬ isCurrentUser currentUser u) (hfriend : ¬ isFriend friends u)
    (hout : ∀ e ∈ potentialFriends users currentUser friends, e.user ≠ u) :
    (∀ e ∈ potentialFriends users currentUser friends,
        calculateMatchScore currentUser (some u) ≤ e.matchScore)
      ∧ ∀ a b : Recommendation,
        [a, b].Sublist (potentialFriends users currentUser friends) →
          b.matchScore ≤ a.matchScore := by
  constructor
  · intro e he
    cases hcu : currentUser with
    | none => simp [calculateMatchScore]
    | some c =>
      have hne : u.uid ≠ optionalUid currentUser :=
        ne_of_not_isCurrentUser currentUser u (Or.inl (by simp [hcu])) hself
      rw [← hcu]
      rw [potentialFriends_eq] at he hout
      have hsorted := insertionSort_scoreStaysBefore_sorted
        ((users.filter
            (fun user => user.uid != optionalUid currentUser
              && !(friends.map (fun f => f.id)).contains user.uid)).map
          (fun user =>
            ({ user := user, matchScore := calculateMatchScore currentUser (some user) }
              : Recommendation)))
      have hmem : ({ user := u, matchScore := calculateMatchScore currentUser (some u) }
          : Recommendation)
          ∈ ((users.filter
            (fun user => user.uid != optionalUid currentUser
              && !(friends.map (fun f => f.id)).contains user.uid)).map
          (fun user =>
            ({ user := user, matchScore := calculateMatchScore currentUser (some user) }
              : Recommendation))).insertionSort scoreStaysBefore := by
        rw [List.mem_insertionSort, List.mem_map]
        exact ⟨u, List.mem_filter.2 ⟨hu, (filter_condition_iff _ _ _).2 ⟨hne, hfriend⟩⟩, rfl⟩
      generalize ((users.filter
            (fun user => user.uid != optionalUid currentUser
              && !(friends.map (fun f => f.id)).contains user.uid)).map
          (fun user =>
            ({ user := user, matchScore := calculateMatchScore currentUser (some user) }
              : Recommendation))).insertionSort scoreStaysBefore = sorted
        at he hout hsorted hmem
      rw [← List.take_append_drop 3 sorted] at hsorted hmem
      rcases List.mem_append.1 hmem with h | h
      · exact absurd rfl (hout _ h)
      · exact (List.pairwise_append.1 hsorted).2.2 e he _ h
  · intro a b hab
    rw [potentialFriends_eq] at hab
    have h := ((insertionSort_scoreStaysBefore_sorted _).sublist
      (List.take_sublist 3 _)).sublist hab
    exact (List.pairwise_cons.1 h).1 b (List.mem_singleton_self b)

/-- Witness for C20: the current user wants `Go`; user 2 offers it and has
score 100, users 3, 4 and 5 have score 0; user 5 is left out.  With the two
users of the specification's example, user 2 ranks above user 3. -/
theorem potentialFriends_top_witness :
    ((∀ e ∈ potentialFriends
          [{ uid := some "2", skillsOffered := some ["Go"], skillsWanted := some [] },
           { uid := some "3", skillsOffered := some [], skillsWanted := some [] },
           { uid := some "4" }, { uid := some "5" }]
          (some { uid := some "1", skillsWanted := some ["Go"] }) [],
        calculateMatchScore (some { uid := some "1", skillsWanted := some ["Go"] })
          (some { uid := some "5" }) ≤ e.matchScore)
      ∧ ∀ a b : Recommendation,
        [a, b].Sublist (potentialFriends
          [{ uid := some "2", skillsOffered := some ["Go"], skillsWanted := some [] },
           { uid := some "3", skillsOffered := some [], skillsWanted := some [] },
           { uid := some "4" }, { uid := some "5" }]
          (some { uid := some "1", skillsWanted := some ["Go"] }) []) →
          b.matchScore ≤ a.matchScore)
    ∧ potentialFriends
        [{ uid := some "2", skillsOffered := some ["Go"], skillsWanted := some [] },
         { uid := some "3", skillsOffered := some [], skillsWanted := some [] }]
        (some { uid := some "1", skillsWanted := some ["Go"] }) []
      = [{ user := { uid := some "2", skillsOffered := some ["Go"], skillsWanted := some [] },
           matchScore := 100 },
         { user := { uid := some "3", skillsOffered := some [], skillsWanted := some [] },
           matchScore := 0 }] :=
  ⟨potentialFriends_top
      [{ uid := some "2", skillsOffered := some ["Go"], skillsWanted := some [] },
       { uid := some "3", skillsOffered := some [], skillsWanted := some [] },
       { uid := some "4" }, { uid := some "5" }]
      (some { uid := some "1", skillsWanted := some ["Go"] }) [] { uid := some "5" }
      (by decide) (by decide) (by decide) (by decide),
   by decide⟩

/-! ## Monotonicity of rounding -/

/-- Rounding to the nearest natural is monotone in the numerator. -/
theorem roundTiesEven_mono_left (n m d : Nat) (hd : 0 < d) (h : n ≤ m) :
    roundTiesEven n d ≤ roundTiesEven m d := by
  by_contra hlt
  have hlt2 : roundTiesEven m d + 1 ≤ roundTiesEven n d := by omega
  have h1 := (roundTiesEven_spec n d hd).1
  have h2 := (roundTiesEven_spec m d hd).2
  have hmul : (roundTiesEven m d + 1) * d ≤ roundTiesEven n d * d :=
    Nat.mul_le_mul_right d hlt2
  have e1 : 2 * roundTiesEven n d * d = 2 * (roundTiesEven n d * d) := by ring
  have e2 : 2 * roundTiesEven m d * d = 2 * (roundTiesEven m d * d) := by ring
  have e3 : (roundTiesEven m d + 1) * d = roundTiesEven m d * d + d := by ring
  rw [e1] at h1
  rw [e2] at h2
  rw [e3] at hmul
  have hnm : n = m := by omega
  subst hnm
  omega

/-- Rounding depends on the quotient only: a common factor cancels. -/
theorem roundTiesEven_mul_left (k n d : Nat) (hk : 0 < k) :
    roundTiesEven (k * n) (k * d) = roundTiesEven n d := by
  unfold roundTiesEven
  simp only [Nat.mul_div_mul_left n d hk, Nat.mul_mod_mul_left]
  have c1 : 2 * (k * (n % d)) < k * d ↔ 2 * (n % d) < d := by
    rw [show 2 * (k * (n % d)) = k * (2 * (n % d)) by ring]
    exact Nat.mul_lt_mul_left hk
  have c2 : k * d < 2 * (k * (n % d)) ↔ d < 2 * (n % d) := by
    rw [show 2 * (k * (n % d)) = k * (2 * (n % d)) by ring]
    exact Nat.mul_lt_mul_left hk
  simp only [c1, c2]

/-- Rounding to the nearest natural is monotone in the quotient. -/
theorem roundTiesEven_mono (n d m c : Nat) (hd : 0 < d) (hc : 0 < c) (h : n * c ≤ m * d) :
    roundTiesEven n d ≤ roundTiesEven m c := by
  rw [← roundTiesEven_mul_left c n d hc, ← roundTiesEven_mul_left d m c hd,
    show d * c = c * d by ring]
  apply roundTiesEven_mono_left _ _ _ (Nat.mul_pos hc hd)
  calc c * n = n * c := by ring
    _ ≤ m * d := h
    _ = d * m := by ring

/-- Rounding does not fall below a natural number that bounds `n / d` from
below. -/
theorem roundTiesEven_ge (n d k : Nat) (hd : 0 < d) (h : k * d ≤ n) :
    k ≤ roundTiesEven n d := by
  have h2 := (roundTiesEven_spec n d hd).2
  have h3 : 2 * k * d < (2 * roundTiesEven n d + 2) * d := by
    have e1 : (2 * roundTiesEven n d + 2) * d = 2 * roundTiesEven n d * d + 2 * d := by ring
    have e2 : 2 * k * d = 2 * (k * d) := by ring
    omega
  have h4 := Nat.lt_of_mul_lt_mul_right h3
  omega

/-- A `Binary64` value is not negative. -/
theorem Binary64.toRat_nonneg (x : Binary64) : 0 ≤ x.toRat := by
  unfold Binary64.toRat
  have : (0 : ℚ) < (2 : ℚ) ^ x.exp := zpow_pos (by norm_num) _
  positivity

/-- The binary exponent is monotone in the quotient. -/
theorem floorLog2_mono (n d m c : Nat) (hn : 0 < n) (hd : 0 < d) (hm : 0 < m) (hc : 0 < c)
    (h : (n : ℚ) / d ≤ (m : ℚ) / c) : floorLog2 n d ≤ floorLog2 m c := by
  have h1 := (floorLog2_spec n d hn hd).1
  have h2 := (floorLog2_spec m c hm hc).2
  have := (zpow_lt_zpow_iff_right₀ (by norm_num : (1 : ℚ) < 2)).1
    (lt_of_le_of_lt (h1.trans h) h2)
  omega

/-- The value of `ofQuot` from a bound on the scaled quotient, from above. -/
theorem ofQuot_le_of_scaled (n d K : Nat) (hn : 0 < n) (hd : 0 < d)
    (h : (n : ℚ) / d * (2 : ℚ) ^ (52 - max (floorLog2 n d) (-1022)) ≤ K) :
    (Binary64.ofQuot n d).toRat ≤ (K : ℚ) * (2 : ℚ) ^ (max (floorLog2 n d) (-1022) - 52) := by
  rw [ofQuot_toRat n d hn]
  generalize max (floorLog2 n d) (-1022) = e at h
  have hD : 0 < d * 2 ^ (-(52 - e)).toNat := Nat.mul_pos hd (by positivity)
  have hDq : (0 : ℚ) < ((d * 2 ^ (-(52 - e)).toNat : Nat) : ℚ) := by exact_mod_cast hD
  rw [← scaled_quot n d hd, div_le_iff₀ hDq] at h
  have hnat : n * 2 ^ (52 - e).toNat ≤ K * (d * 2 ^ (-(52 - e)).toNat) := by exact_mod_cast h
  have hR := roundTiesEven_le _ _ K hD hnat
  have hpos : (0 : ℚ) < (2 : ℚ) ^ (e - 52) := zpow_pos (by norm_num) _
  exact mul_le_mul_of_nonneg_right (by exact_mod_cast hR) hpos.le

/-- The value of `ofQuot` from a bound on the scaled quotient, from below. -/
theorem ofQuot_ge_of_scaled (n d K : Nat) (hn : 0 < n) (hd : 0 < d)
    (h : (K : ℚ) ≤ (n : ℚ) / d * (2 : ℚ) ^ (52 - max (floorLog2 n d) (-1022))) :
    (K : ℚ) * (2 : ℚ) ^ (max (floorLog2 n d) (-1022) - 52) ≤ (Binary64.ofQuot n d).toRat := by
  rw [ofQuot_toRat n d hn]
  generalize max (floorLog2 n d) (-1022) = e at h
  have hD : 0 < d * 2 ^ (-(52 - e)).toNat := Nat.mul_pos hd (by positivity)
  have hDq : (0 : ℚ) < ((d * 2 ^ (-(52 - e)).toNat : Nat) : ℚ) := by exact_mod_cast hD
  rw [← scaled_quot n d hd, le_div_iff₀ hDq] at h
  have hnat : K * (d * 2 ^ (-(52 - e)).toNat) ≤ n * 2 ^ (52 - e).toNat := by exact_mod_cast h
  have hR := roundTiesEven_ge _ _ K hD hnat
  have hpos : (0 : ℚ) < (2 : ℚ) ^ (e - 52) := zpow_pos (by norm_num) _
  exact mul_le_mul_of_nonneg_right (by exact_mod_cast hR) hpos.le

/-- Rounding to binary64 is monotone in the quotient. -/
theorem ofQuot_mono (n d m c : Nat) (hd : 0 < d) (hc : 0 < c)
    (h : (n : ℚ) / d ≤ (m : ℚ) / c) :
    (Binary64.ofQuot n d).toRat ≤ (Binary64.ofQuot m c).toRat := by
  rcases Nat.eq_zero_or_pos n with h0 | hn
  · subst h0
    have : (Binary64.ofQuot 0 d).toRat = 0 := by simp [Binary64.ofQuot, Binary64.toRat]
    rw [this]
    exact Binary64.toRat_nonneg _
  have hdq : (0 : ℚ) < d := by exact_mod_cast hd
  have hcq : (0 : ℚ) < c := by exact_mod_cast hc
  have hnq : (0 : ℚ) < n := by exact_mod_cast hn
  have hm : 0 < m := by
    rcases Nat.eq_zero_or_pos m with hm0 | hm
    · subst hm0
      have hpos : (0 : ℚ) < (n : ℚ) / d := div_pos hnq hdq
      simp at h
      linarith
    · exact hm
  have hfl := floorLog2_mono n d m c hn hd hm hc h
  obtain ⟨hx1, hx2⟩ := floorLog2_spec n d hn hd
  obtain ⟨hy1, hy2⟩ := floorLog2_spec m c hm hc
  have two_ne : (2 : ℚ) ≠ 0 := by norm_num
  rcases lt_or_eq_of_le (max_le_max hfl (le_refl (-1022 : Int))) with hlt | heq
  · -- different binades: a power of two lies between the two results
    have he2 : max (floorLog2 m c) (-1022) = floorLog2 m c := by
      apply max_eq_left
      have : (-1022 : Int) ≤ max (floorLog2 n d) (-1022) := le_max_right _ _
      by_contra hcon
      have : max (floorLog2 m c) (-1022) = -1022 := max_eq_right (by omega)
      omega
    have hup := ofQuot_le_of_scaled n d (2 ^ 53) hn hd (by
      have h1 : (n : ℚ) / d < (2 : ℚ) ^ (max (floorLog2 n d) (-1022) + 1) :=
        lt_of_lt_of_le hx2
          (zpow_le_zpow_right₀ (by norm_num) (by have := le_max_left (floorLog2 n d) (-1022); omega))
      have hpos : (0 : ℚ) < (2 : ℚ) ^ (52 - max (floorLog2 n d) (-1022)) :=
        zpow_pos (by norm_num) _
      have h2 := mul_le_mul_of_nonneg_right h1.le hpos.le
      rw [← zpow_add₀ two_ne] at h2
      have e : max (floorLog2 n d) (-1022) + 1 + (52 - max (floorLog2 n d) (-1022)) = 53 := by
        ring
      rw [e] at h2
      have e53 : (2 : ℚ) ^ (53 : Int) = ((2 ^ 53 : Nat) : ℚ) := by norm_num
      rw [e53] at h2
      exact h2)
    have hlow := ofQuot_ge_of_scaled m c (2 ^ 52) hm hc (by
      rw [he2]
      have hpos : (0 : ℚ) < (2 : ℚ) ^ (52 - floorLog2 m c) := zpow_pos (by norm_num) _
      have h2 := mul_le_mul_of_nonneg_right hy1 hpos.le
      rw [← zpow_add₀ two_ne] at h2
      have e : floorLog2 m c + (52 - floorLog2 m c) = 52 := by ring
      rw [e] at h2
      have e52 : (2 : ℚ) ^ (52 : Int) = ((2 ^ 52 : Nat) : ℚ) := by norm_num
      rw [e52] at h2
      exact h2)
    have hmid : ((2 ^ 53 : Nat) : ℚ) * (2 : ℚ) ^ (max (floorLog2 n d) (-1022) - 52)
        ≤ ((2 ^ 52 : Nat) : ℚ) * (2 : ℚ) ^ (max (floorLog2 m c) (-1022) - 52) := by
      have e1 : ((2 ^ 53 : Nat) : ℚ) * (2 : ℚ) ^ (max (floorLog2 n d) (-1022) - 52)
          = (2 : ℚ) ^ (max (floorLog2 n d) (-1022) + 1) := by
        have : ((2 ^ 53 : Nat) : ℚ) = (2 : ℚ) ^ (53 : Int) := by norm_num
        rw [this, ← zpow_add₀ two_ne]
        congr 1
        ring
      have e2 : ((2 ^ 52 : Nat) : ℚ) * (2 : ℚ) ^ (max (floorLog2 m c) (-1022) - 52)
          = (2 : ℚ) ^ (max (floorLog2 m c) (-1022)) := by
        have : ((2 ^ 52 : Nat) : ℚ) = (2 : ℚ) ^ (52 : Int) := by norm_num
        rw [this, ← zpow_add₀ two_ne]
        congr 1
        ring
      rw [e1, e2]
      exact zpow_le_zpow_right₀ (by norm_num) (by omega)
    exact hup.trans (hmid.trans hlow)
  · -- the same binade: both quotients are scaled alike
    rw [ofQuot_toRat n d hn, ofQuot_toRat m c hm, ← heq]
    generalize max (floorLog2 n d) (-1022) = e
    have hpos : (0 : ℚ) < (2 : ℚ) ^ (e - 52) := zpow_pos (by norm_num) _
    apply mul_le_mul_of_nonneg_right _ hpos.le
    have hD1 : 0 < d * 2 ^ (-(52 - e)).toNat := Nat.mul_pos hd (by positivity)
    have hD2 : 0 < c * 2 ^ (-(52 - e)).toNat := Nat.mul_pos hc (by positivity)
    have hD1q : (0 : ℚ) < ((d * 2 ^ (-(52 - e)).toNat : Nat) : ℚ) := by exact_mod_cast hD1
    have hD2q : (0 : ℚ) < ((c * 2 ^ (-(52 - e)).toNat : Nat) : ℚ) := by exact_mod_cast hD2
    have hs : (0 : ℚ) < (2 : ℚ) ^ (52 - e) := zpow_pos (by norm_num) _
    have hscaled := mul_le_mul_of_nonneg_right h hs.le
    rw [← scaled_quot n d hd, ← scaled_quot m c hc, div_le_div_iff₀ hD1q hD2q] at hscaled
    have hnat : n * 2 ^ (52 - e).toNat * (c * 2 ^ (-(52 - e)).toNat)
        ≤ m * 2 ^ (52 - e).toNat * (d * 2 ^ (-(52 - e)).toNat) := by exact_mod_cast hscaled
    exact_mod_cast roundTiesEven_mono _ _ _ _ hD1 hD2 hnat

/-- The product with a constant is monotone after rounding. -/
theorem numMul_mono (x y : Binary64) (k : Nat) (h : x.toRat ≤ y.toRat) :
    (numMul x k).toRat ≤ (numMul y k).toRat := by
  unfold numMul
  apply ofQuot_mono _ _ _ _ (by positivity) (by positivity)
  rw [numMul_quot, numMul_quot]
  exact mul_le_mul_of_nonneg_right h (by positivity)

/-- `Math.round` is monotone. -/
theorem mathRound_mono (x y : Binary64) (h : x.toRat ≤ y.toRat) :
    mathRound x ≤ mathRound y := by
  have h1 := (mathRound_spec x).1
  have h2 := (mathRound_spec y).2
  have h3 : (mathRound x : ℚ) < (mathRound y : ℚ) + 1 := by linarith
  have h4 : mathRound x < mathRound y + 1 := by exact_mod_cast h3
  omega

/-- The percentage `Math.round((m / total) * 100)` is monotone in `m`. -/
theorem percentage_mono (m k total : Nat) (ht : 0 < total) (h : m ≤ k) :
    mathRound (numMul (numDiv m total) 100) ≤ mathRound (numMul (numDiv k total) 100) := by
  apply mathRound_mono
  apply numMul_mono
  unfold numDiv
  apply ofQuot_mono _ _ _ _ ht ht
  have htq : (0 : ℚ) < total := by exact_mod_cast ht
  have : (m : ℚ) ≤ k := by exact_mod_cast h
  exact div_le_div_of_nonneg_right this htq.le

/-- The result of rounding depends on the value of the quotient only. -/
theorem ofQuot_congr (n d m c : Nat) (hd : 0 < d) (hc : 0 < c)
    (h : (n : ℚ) / d = (m : ℚ) / c) :
    (Binary64.ofQuot n d).toRat = (Binary64.ofQuot m c).toRat :=
  le_antisymm (ofQuot_mono n d m c hd hc h.le) (ofQuot_mono m c n d hc hd h.ge)

/-- The quotient of a positive number by itself is exactly one. -/
theorem numDiv_self (total : Nat) (ht : 0 < total) : (numDiv total total).toRat = 1 := by
  have htq : (total : ℚ) ≠ 0 := by exact_mod_cast (Nat.pos_iff_ne_zero.1 ht)
  have h := ofQuot_congr total total 1 1 ht Nat.one_pos (by field_simp)
  have hone : Binary64.ofQuot 1 1 = ⟨4503599627370496, -52⟩ := by decide
  rw [hone] at h
  unfold numDiv
  rw [h]
  norm_num [Binary64.toRat]

/-- One hundred times one is exactly one hundred. -/
theorem numMul_one_hundred (x : Binary64) (hx : x.toRat = 1) : (numMul x 100).toRat = 100 := by
  unfold numMul
  have h := ofQuot_congr (x.mant * 100 * 2 ^ x.exp.toNat) (2 ^ (-x.exp).toNat) 100 1
    (by positivity) Nat.one_pos (by rw [numMul_quot, hx]; norm_num)
  have hhundred : Binary64.ofQuot 100 1 = ⟨7036874417766400, -46⟩ := by decide
  rw [hhundred] at h
  rw [h]
  norm_num [Binary64.toRat]

/-- The percentage of `total` out of `total` is 100. -/
theorem percentage_full (total : Nat) (ht : 0 < total) :
    mathRound (numMul (numDiv total total) 100) = 100 := by
  have hval := numMul_one_hundred _ (numDiv_self total ht)
  obtain ⟨h1, h2⟩ := mathRound_spec (numMul (numDiv total total) 100)
  rw [hval] at h1 h2
  have h3 : (mathRound (numMul (numDiv total total) 100) : ℚ) < 101 := by linarith
  have h4 : (99 : ℚ) < (mathRound (numMul (numDiv total total) 100) : ℚ) := by linarith
  have h5 : mathRound (numMul (numDiv total total) 100) < 101 := by exact_mod_cast h3
  have h6 : 99 < mathRound (numMul (numDiv total total) 100) := by exact_mod_cast h4
  omega

/-- The percentage of nothing is 0. -/
theorem percentage_zero (total : Nat) : mathRound (numMul (numDiv 0 total) 100) = 0 := by
  simp [numDiv, numMul, Binary64.ofQuot, mathRound]

/-- Membership in a longer offered list keeps at least as many wanted
entries. -/
theorem length_filter_contains_append (wanted offered : List String) (s : String) :
    (wanted.filter (fun skill => offered.contains skill)).length
      ≤ (wanted.filter (fun skill => (offered ++ [s]).contains skill)).length := by
  apply List.Sublist.length_le
  apply List.monotone_filter_right
  intro a ha
  simp only [List.contains_eq_any_beq, List.any_eq_true, beq_iff_eq, List.any_append,
    Bool.or_eq_true] at ha ⊢
  exact Or.inl ha

/-- Offered lists with the same elements select the same wanted entries. -/
theorem filter_contains_congr (wanted offered offered2 : List String)
    (h : ∀ s, s ∈ offered ↔ s ∈ offered2) :
    wanted.filter (fun skill => offered.contains skill)
      = wanted.filter (fun skill => offered2.contains skill) := by
  apply List.filter_congr
  intro x _
  rw [Bool.eq_iff_iff]
  simp only [List.contains_eq_any_beq, List.any_eq_true, beq_iff_eq, exists_eq_right]
  constructor
  · rintro ⟨y, hy, rfl⟩
    exact ⟨x, (h x).1 hy, rfl⟩
  · rintro ⟨y, hy, rfl⟩
    exact ⟨x, (h x).2 hy, rfl⟩

/-! ## Algebraic properties of the match score -/

/-- C27: appending a skill to the `skillsOffered` of either profile never
lowers the match score. -/
theorem calculateMatchScore_mono_offered (A B : Profile) (s : String) :
    calculateMatchScore (some A) (some B) ≤ calculateMatchScore (some (appendOffered A s)) (some B)
      ∧ calculateMatchScore (some A) (some B)
        ≤ calculateMatchScore (some A) (some (appendOffered B s)) := by
  constructor
  · simp only [calculateMatchScore, appendOffered, orEmpty]
    apply percentage_mono _ _ _ (by omega)
    have := length_filter_contains_append (orEmpty B.skillsWanted) (orEmpty A.skillsOffered) s
    simp only [orEmpty] at this
    omega
  · simp only [calculateMatchScore, appendOffered, orEmpty]
    apply percentage_mono _ _ _ (by omega)
    have := length_filter_contains_append (orEmpty A.skillsWanted) (orEmpty B.skillsOffered) s
    simp only [orEmpty] at this
    omega

/-- C28: the match score depends on the two `skillsOffered` lists only through
their sets of elements: profiles with the same wanted lists and with offered
lists that have the same elements (in any order, with any repetitions) get
the same score. -/
theorem calculateMatchScore_offered_set (A B A2 B2 : Profile)
    (hAo : ∀ s ∈ orEmpty A.skillsOffered, s ∈ orEmpty A2.skillsOffered)
    (hAo2 : ∀ s ∈ orEmpty A2.skillsOffered, s ∈ orEmpty A.skillsOffered)
    (hBo : ∀ s ∈ orEmpty B.skillsOffered, s ∈ orEmpty B2.skillsOffered)
    (hBo2 : ∀ s ∈ orEmpty B2.skillsOffered, s ∈ orEmpty B.skillsOffered)
    (hAw : orEmpty A.skillsWanted = orEmpty A2.skillsWanted)
    (hBw : orEmpty B.skillsWanted = orEmpty B2.skillsWanted) :
    calculateMatchScore (some A) (some B) = calculateMatchScore (some A2) (some B2) := by
  simp only [calculateMatchScore]
  rw [filter_contains_congr _ _ _ (fun s => ⟨hAo s, hAo2 s⟩),
    filter_contains_congr _ _ _ (fun s => ⟨hBo s, hBo2 s⟩), hAw, hBw]

/-- Witness for C28: the offered list `go, rust` against its rearrangement
with a repetition, `rust, go, rust`; and a wanted entry listed twice counts
twice in the matches and in the denominator, giving 100. -/
theorem calculateMatchScore_offered_set_witness :
    calculateMatchScore
        (some { skillsOffered := some ["go", "rust"], skillsWanted := some ["c"] })
        (some { skillsOffered := some ["c"], skillsWanted := some ["rust", "ada"] })
      = calculateMatchScore
        (some { skillsOffered := some ["rust", "go", "rust"], skillsWanted := some ["c"] })
        (some { skillsOffered := some ["c"], skillsWanted := some ["rust", "ada"] })
    ∧ calculateMatchScore (some { skillsWanted := some ["s", "s"] })
        (some { skillsOffered := some ["s"], skillsWanted := some [] }) = 100
    ∧ specMatches { skillsWanted := some ["s", "s"] }
        { skillsOffered := some ["s"], skillsWanted := some [] } = 2
    ∧ specDenominator { skillsWanted := some ["s", "s"] }
        { skillsOffered := some ["s"], skillsWanted := some [] } = 2 :=
  ⟨calculateMatchScore_offered_set
      { skillsOffered := some ["go", "rust"], skillsWanted := some ["c"] }
      { skillsOffered := some ["c"], skillsWanted := some ["rust", "ada"] }
      { skillsOffered := some ["rust", "go", "rust"], skillsWanted := some ["c"] }
      { skillsOffered := some ["c"], skillsWanted := some ["rust", "ada"] }
      (by decide) (by decide) (by decide) (by decide) rfl rfl,
   by decide, by decide, by decide⟩

/-- C29: two present profiles with at least one wanted skill between them, all
of whose wanted skills occur in the other's `skillsOffered`, have the score
100; and a positive score needs two present profiles and a wanted skill of
one of them that occurs in the other's `skillsOffered`. -/
theorem calculateMatchScore_full_and_positive :
    (∀ A B : Profile,
        0 < (orEmpty A.skillsWanted).length + (orEmpty B.skillsWanted).length →
        (∀ w ∈ orEmpty A.skillsWanted, w ∈ orEmpty B.skillsOffered) →
        (∀ w ∈ orEmpty B.skillsWanted, w ∈ orEmpty A.skillsOffered) →
        calculateMatchScore (some A) (some B) = 100)
      ∧ ∀ A B : Option Profile, 0 < calculateMatchScore A B →
          ∃ a b, A = some a ∧ B = some b
            ∧ ((∃ w ∈ orEmpty a.skillsWanted, w ∈ orEmpty b.skillsOffered)
              ∨ ∃ w ∈ orEmpty b.skillsWanted, w ∈ orEmpty a.skillsOffered) := by
  constructor
  · intro A B hpos hA hB
    simp only [calculateMatchScore]
    have h1 : (orEmpty A.skillsWanted).filter (fun skill => (orEmpty B.skillsOffered).contains skill)
        = orEmpty A.skillsWanted := by
      rw [List.filter_eq_self]
      intro w hw
      simpa using hA w hw
    have h2 : (orEmpty B.skillsWanted).filter (fun skill => (orEmpty A.skillsOffered).contains skill)
        = orEmpty B.skillsWanted := by
      rw [List.filter_eq_self]
      intro w hw
      simpa using hB w hw
    rw [h1, h2, max_eq_left (by omega)]
    exact percentage_full _ hpos
  · intro A B hscore
    cases A with
    | none => simp [calculateMatchScore] at hscore
    | some a =>
      cases B with
      | none => simp [calculateMatchScore] at hscore
      | some b =>
        refine ⟨a, b, rfl, rfl, ?_⟩
        by_contra hnone
        rw [not_or] at hnone
        obtain ⟨hn1, hn2⟩ := hnone
        have h1 : (orEmpty a.skillsWanted).filter
            (fun skill => (orEmpty b.skillsOffered).contains skill) = [] := by
          rw [List.filter_eq_nil_iff]
          intro w hw hc
          exact hn1 ⟨w, hw, by simpa using hc⟩
        have h2 : (orEmpty b.skillsWanted).filter
            (fun skill => (orEmpty a.skillsOffered).contains skill) = [] := by
          rw [List.filter_eq_nil_iff]
          intro w hw hc
          exact hn2 ⟨w, hw, by simpa using hc⟩
        simp only [calculateMatchScore, h1, h2, List.length_nil, Nat.add_zero] at hscore
        rw [percentage_zero] at hscore
        exact absurd hscore (by omega)

/-- Witness for C29: each profile offers all the other wants, and a positive
score comes with a match. -/
theorem calculateMatchScore_full_and_positive_witness :
    calculateMatchScore
        (some { skillsOffered := some ["go"], skillsWanted := some ["rust", "c"] })
        (some { skillsOffered := some ["c", "rust"], skillsWanted := some ["go"] }) = 100
    ∧ ∃ a b, some ({ skillsWanted := some ["go", "ada"] } : Profile) = some a
        ∧ some ({ skillsOffered := some ["go"], skillsWanted := some [] } : Profile) = some b
        ∧ ((∃ w ∈ orEmpty a.skillsWanted, w ∈ orEmpty b.skillsOffered)
          ∨ ∃ w ∈ orEmpty b.skillsWanted, w ∈ orEmpty a.skillsOffered) :=
  ⟨calculateMatchScore_full_and_positive.1
      { skillsOffered := some ["go"], skillsWanted := some ["rust", "c"] }
      { skillsOffered := some ["c", "rust"], skillsWanted := some ["go"] }
      (by decide) (by decide) (by decide),
   calculateMatchScore_full_and_positive.2
      (some { skillsWanted := some ["go", "ada"] })
      (some { skillsOffered := some ["go"], skillsWanted := some [] }) (by decide)⟩

/-! ## Lemmas on the top five and on mentors -/

/-- When no offered name is inherited from `Object.prototype`, an offered
skill that has no entry in the trending list occurs no more often than the
skill of any listed entry. -/
theorem calculateTrendingSkills_top_of_plain (users : List Profile)
    (hplain : ∀ s ∈ allOffered users, inheritedText s = none)
    (s : String) (hs : s ∈ allOffered users)
    (hout : ∀ e ∈ calculateTrendingSkills users, e.skill ≠ s) :
    ∀ e ∈ calculateTrendingSkills users,
      countAtLeast e.count (CountValue.num (occurrences s users)) := by
  intro e he
  have hproto : s ≠ "__proto__" := fun h => inheritedText_proto (h ▸ hplain s hs)
  have hkey : s ∈ (countSkills users).map Prod.fst := by
    rw [map_fst_countSkills, mem_firstEncounter]
    exact List.mem_filter.2 ⟨hs, by simpa using hproto⟩
  obtain ⟨entry, hentry, hfst⟩ := List.mem_map.1 hkey
  have hcount := count_of_mem_countSkills users hplain hentry
  have hranked : ∃ x ∈ rankedSkills users, x.count = CountValue.num (occurrences s users)
      ∧ x.skill = s :=
    ⟨_, (rankedSkills_perm users).mem_iff.2 (List.mem_map.2 ⟨entry, hentry, rfl⟩),
      by simp only [hcount, hfst], hfst⟩
  obtain ⟨x, hx, hxcount, hxskill⟩ := hranked
  have hsorted := rankedSkills_sorted users hplain
  rw [calculateTrendingSkills_eq_take] at he hout
  rw [← List.take_append_drop 5 (rankedSkills users)] at hsorted hx
  rcases List.mem_append.1 hx with h | h
  · exact absurd hxskill (hout _ h)
  · have := (List.pairwise_append.1 hsorted).2.2 e he _ h
    rw [hxcount] at this
    exact this

/-- A profile that offers a skill lists it at least once. -/
theorem count_pos_of_offers {skill : String} {u : Profile} (h : offers skill u = true) :
    0 < (orEmpty u.skillsOffered).count skill := by
  unfold offers at h
  cases hs : u.skillsOffered with
  | none => simp [hs] at h
  | some l =>
    rw [hs] at h
    simp only [orEmpty]
    exact List.count_pos_iff.2 (by simpa using h)

/-- A profile that does not offer a skill does not list it. -/
theorem count_eq_zero_of_not_offers {skill : String} {u : Profile} (h : ¬ offers skill u = true) :
    (orEmpty u.skillsOffered).count skill = 0 := by
  unfold offers at h
  cases hs : u.skillsOffered with
  | none => simp [orEmpty]
  | some l =>
    rw [hs] at h
    simp only [orEmpty]
    apply List.count_eq_zero_of_not_mem
    intro hm
    exact h (by simpa using hm)

/-- The profiles that offer a skill are at most as many as its occurrences. -/
theorem length_filter_offers_le (skill : String) (users : List Profile) :
    (users.filter (fun user => offers skill user)).length ≤ occurrences skill users := by
  unfold occurrences
  induction users with
  | nil => simp
  | cons u us ih =>
    simp only [List.filter_cons, List.map_cons, List.sum_cons]
    by_cases ho : offers skill u = true
    · have := count_pos_of_offers ho
      simp only [ho, if_true, List.length_cons]
      omega
    · have hf : offers skill u = false := by simpa using ho
      simp only [hf, Bool.false_eq_true, if_false]
      omega

/-- A skill that occurs in the population is offered by some profile. -/
theorem length_filter_offers_pos (skill : String) (users : List Profile)
    (h : 0 < occurrences skill users) :
    0 < (users.filter (fun user => offers skill user)).length := by
  unfold occurrences at h
  induction users with
  | nil => simp at h
  | cons u us ih =>
    simp only [List.map_cons, List.sum_cons] at h
    simp only [List.filter_cons]
    by_cases ho : offers skill u = true
    · simp [ho]
    · have hf : offers skill u = false := by simpa using ho
      simp only [hf, Bool.false_eq_true, if_false]
      apply ih
      have hz := count_eq_zero_of_not_offers ho
      omega

/-- For a skill name that `Object.prototype` does not define, the count of a
listed entry is a Number that is at least the number of mentors, which is at
least one. -/
theorem count_ge_mentors_of_plain (users : List Profile) (e : SkillTrend)
    (he : e ∈ calculateTrendingSkills users) (hk : inheritedText e.skill = none) :
    countAtLeast e.count (CountValue.num e.mentors.length) ∧ 1 ≤ e.mentors.length := by
  obtain ⟨hcount, hpos⟩ := count_of_mem_calculateTrendingSkills he hk
  obtain ⟨entry, _, rfl⟩ := mem_calculateTrendingSkills he
  simp only at hcount hpos hk ⊢
  rw [hcount]
  exact ⟨length_filter_offers_le entry.1 users, length_filter_offers_pos entry.1 users hpos⟩

/-! ## The top five and the mentor counts -/

/-- C25 (evaluation at the failing input): the skill `__proto__`, offered
twice, never becomes an own property of `skillCount` and is left out of the
trending list, whose only entry has count 1.  No skill name is listed twice. -/
theorem calculateTrendingSkills_not_top :
    calculateTrendingSkills [{ skillsOffered := some ["__proto__", "__proto__", "a"] }]
        = [{ skill := "a", count := CountValue.num 1,
             mentors := [{ skillsOffered := some ["__proto__", "__proto__", "a"] }] }]
      ∧ occurrences "__proto__" [{ skillsOffered := some ["__proto__", "__proto__", "a"] }] = 2
      ∧ ¬ countAtLeast (CountValue.num 1) (CountValue.num 2)
      ∧ ∀ users : List Profile,
          ((calculateTrendingSkills users).map (fun e => e.skill)).Nodup := by
  refine ⟨by decide, by decide, by decide, fun users => ?_⟩
  rw [calculateTrendingSkills_eq_take, List.map_take]
  refine List.Nodup.sublist (List.take_sublist 5 _) ?_
  have h := ((rankedSkills_perm users).map (fun e : SkillTrend => e.skill)).nodup_iff
  rw [h, List.map_map]
  exact (countInv_countSkills users).1

/-- C26 (evaluation at the failing input): for the skill name `constructor`
the count is a string, so it is not a number that is at least the number of
mentors, which is 1. -/
theorem calculateTrendingSkills_count_not_number :
    calculateTrendingSkills [{ skillsOffered := some ["constructor"] }]
        = [{ skill := "constructor",
             count := CountValue.text "function Object() \x7b [native code] \x7d1",
             mentors := [{ skillsOffered := some ["constructor"] }] }]
      ∧ ¬ countAtLeast (CountValue.text "function Object() \x7b [native code] \x7d1")
          (CountValue.num 1) := by
  decide

/-! ## Lemmas on trimming and on the index filter -/

/-- Trimming gives the empty string exactly for blank strings. -/
theorem trim_eq_empty_iff (s : String) : trim s = "" ↔ isBlank s := by
  unfold trim isBlank
  have hmk : ∀ l : List Char, String.mk l = "" ↔ l = [] := by
    intro l
    constructor
    · intro h
      have := congrArg String.data h
      simpa using this
    · intro h
      subst h
      rfl
  rw [hmk, List.reverse_eq_nil_iff, List.dropWhile_eq_nil_iff]
  constructor
  · intro h
    have h2 : s.toList.dropWhile isWhiteSpace = [] := by
      by_contra hne
      have hhead := List.head_dropWhile_not isWhiteSpace s.toList hne
      have := h _ (List.mem_reverse.2 (List.head_mem hne))
      rw [this] at hhead
      exact absurd hhead (by simp)
    exact List.dropWhile_eq_nil_iff.1 h2
  · intro h x hx
    have h2 : s.toList.dropWhile isWhiteSpace = [] := List.dropWhile_eq_nil_iff.2 h
    rw [h2] at hx
    simp at hx

/-- A trimmed string that is not empty is not blank. -/
theorem not_isBlank_trim (s : String) (h : trim s ≠ "") : ¬ isBlank (trim s) := by
  intro hb
  apply h
  have key : (s.toList.dropWhile isWhiteSpace).reverse.dropWhile isWhiteSpace = [] := by
    by_contra hne
    have hhead := List.head_dropWhile_not isWhiteSpace
      (s.toList.dropWhile isWhiteSpace).reverse hne
    have hmem := List.head_mem hne
    have hin : ((s.toList.dropWhile isWhiteSpace).reverse.dropWhile isWhiteSpace).head hne
        ∈ (trim s).toList := by
      unfold trim
      simp only [String.toList]
      exact List.mem_reverse.2 hmem
    have hws := hb _ hin
    rw [hws] at hhead
    exact absurd hhead (by simp)
  unfold trim
  rw [key]
  rfl

/-- The index filter on an enumeration that starts at `k`. -/
theorem filter_enumFrom (xs : List String) (k : Nat) (index : Int) :
    ((xs.enumFrom k).filter (fun p => decide ((p.1 : Int) ≠ index))).map Prod.snd
      = if (k : Int) ≤ index ∧ index < k + xs.length then xs.eraseIdx (index - k).toNat
        else xs := by
  induction xs generalizing k with
  | nil => simp
  | cons x rest ih =>
    simp only [List.enumFrom_cons, List.filter_cons, List.length_cons]
    by_cases hk : (k : Int) = index
    · subst hk
      have hrest := ih (k + 1)
      have hout : ¬ (((k + 1 : Nat) : Int) ≤ (k : Int)
          ∧ (k : Int) < ((k + 1 : Nat) : Int) + rest.length) := by
        omega
      rw [if_neg hout] at hrest
      have hin : (k : Int) ≤ (k : Int) ∧ (k : Int) < (k : Int) + ((rest.length + 1 : Nat) : Int) := by
        omega
      rw [if_pos hin]
      simp only [ne_eq, not_true_eq_false, decide_False, Bool.false_eq_true, if_false, hrest,
        sub_self, Int.toNat_zero, List.eraseIdx_cons_zero]
    · have hrest := ih (k + 1)
      simp only [ne_eq, hk, not_false_eq_true, decide_True, if_true, List.map_cons, hrest]
      by_cases hin : (k : Int) ≤ index ∧ index < k + (rest.length + 1 : Nat)
      · have hin2 : ((k + 1 : Nat) : Int) ≤ index ∧ index < ((k + 1 : Nat) : Int) + rest.length := by
          omega
        rw [if_pos hin2, if_pos hin]
        have e1 : (index - (k : Int)).toNat = (index - ((k + 1 : Nat) : Int)).toNat + 1 := by omega
        rw [e1, List.eraseIdx_cons_succ]
      · have hin2 : ¬ (((k + 1 : Nat) : Int) ≤ index ∧ index < ((k + 1 : Nat) : Int) + rest.length) := by
          omega
        rw [if_neg hin2, if_neg hin]

/-- The index filter drops the element at `index` when `index` is a position
of the list and nothing otherwise. -/
theorem filterIndex_eq (xs : List String) (index : Int) :
    filterIndex xs index
      = if 0 ≤ index ∧ index < xs.length then xs.eraseIdx index.toNat else xs := by
  have h := filter_enumFrom xs 0 index
  simpa [filterIndex, List.enum] using h

/-- Every record that `listenToUsers` hands on has a `uid` and an `id`. -/
theorem listenToUsers_uid (docs : List (String × Profile)) :
    ∀ u ∈ listenToUsers docs, u.uid ≠ none ∧ u.id ≠ none := by
  intro u hu
  unfold listenToUsers filteredUsers at hu
  obtain ⟨doc, _, rfl⟩ := List.mem_map.1 (List.mem_filter.1 hu).1
  simp [userWithId]

/-! ## The user feed, the forms and the request handler -/

/-- C21: the filter of `listenToUsers` keeps, in their original order, exactly
the records whose name is present and not blank and whose `isPublic` is not
`false`; a record without `isPublic` is kept. -/
theorem filteredUsers_eq (users : List Profile) :
    filteredUsers users
        = users.filter (fun u => decide (nameNonBlank u ∧ u.isPublic ≠ some false))
      ∧ (filteredUsers users).Sublist users := by
  refine ⟨?_, List.filter_sublist _⟩
  unfold filteredUsers
  apply List.filter_congr
  intro u _
  rw [Bool.eq_iff_iff, decide_eq_true_iff]
  unfold keepUser hasName nameNonBlank
  cases hn : u.name with
  | none => simp
  | some n =>
    have hempty : n = "" → trim n = "" := by
      intro h
      subst h
      decide
    by_cases hne : n = ""
    · have hb : isBlank n := (trim_eq_empty_iff n).1 (hempty hne)
      simp [hne, hb]
      exact fun h => absurd ((trim_eq_empty_iff "").1 (by decide)) h
    · simp only [hne, if_false, Bool.and_eq_true, bne_iff_ne, ne_eq]
      rw [← trim_eq_empty_iff]

/-- C22: App.js `addSkill` leaves the form as it is for a blank skill, and
otherwise appends the trimmed skill to `skillsOffered` for the type `offered`
and to `skillsWanted` for every other type, whether or not the skill is
already listed; no other field changes. -/
theorem addSkill_eq (form : ProfileForm) (type skill : String) :
    addSkill form type skill
        = (if isBlank skill then form
           else if type = "offered" then
             { name := form.name, location := form.location,
               skillsOffered := form.skillsOffered ++ [trim skill],
               skillsWanted := form.skillsWanted, availability := form.availability,
               isPublic := form.isPublic, bio := form.bio }
           else
             { name := form.name, location := form.location,
               skillsOffered := form.skillsOffered,
               skillsWanted := form.skillsWanted ++ [trim skill],
               availability := form.availability, isPublic := form.isPublic, bio := form.bio })
      ∧ (addSkill { skillsOffered := ["go"] } "offered" " go ").skillsOffered = ["go", "go"] := by
  refine ⟨?_, by decide⟩
  unfold addSkill
  by_cases hb : isBlank skill
  · simp [hb, (trim_eq_empty_iff skill).2 hb]
  · have hne : trim skill ≠ "" := fun h => hb ((trim_eq_empty_iff skill).1 h)
    simp only [hb, hne, if_false]

/-- C23: ProfilePage `addSkill` appends the trimmed skill to the selected list
exactly when the skill is not blank and the trimmed skill is not yet in the
list, and leaves the list as it is otherwise; the other list never changes;
a list without duplicates stays without duplicates and a list without blank
entries stays without blank entries. -/
theorem ProfilePageState.addSkill_invariant (st : ProfilePageState) (type skill : String)
    (hnodup : (selectedSkills type st.profileForm).Nodup)
    (hblank : ∀ x ∈ selectedSkills type st.profileForm, ¬ isBlank x) :
    selectedSkills type (st.addSkill type skill).profileForm
        = (if ¬ isBlank skill ∧ trim skill ∉ selectedSkills type st.profileForm then
            selectedSkills type st.profileForm ++ [trim skill]
           else selectedSkills type st.profileForm)
      ∧ otherSkills type (st.addSkill type skill).profileForm = otherSkills type st.profileForm
      ∧ (selectedSkills type (st.addSkill type skill).profileForm).Nodup
      ∧ ∀ x ∈ selectedSkills type (st.addSkill type skill).profileForm, ¬ isBlank x := by
  have heq : selectedSkills type (st.addSkill type skill).profileForm
        = (if ¬ isBlank skill ∧ trim skill ∉ selectedSkills type st.profileForm then
            selectedSkills type st.profileForm ++ [trim skill]
           else selectedSkills type st.profileForm)
      ∧ otherSkills type (st.addSkill type skill).profileForm
        = otherSkills type st.profileForm := by
    unfold ProfilePageState.addSkill selectedSkills otherSkills
    by_cases hb : isBlank skill
    · simp [hb, (trim_eq_empty_iff skill).2 hb]
    · have hne : trim skill ≠ "" := fun h => hb ((trim_eq_empty_iff skill).1 h)
      by_cases ht : type = "offered"
      · by_cases hin : trim skill ∈ st.profileForm.skillsOffered <;> simp [hb, hne, ht, hin]
      · by_cases hin : trim skill ∈ st.profileForm.skillsWanted <;> simp [hb, hne, ht, hin]
  refine ⟨heq.1, heq.2, ?_, ?_⟩
  · rw [heq.1]
    split_ifs with h
    · rw [List.nodup_append]
      refine ⟨hnodup, by simp, ?_⟩
      intro a ha hb
      simp at hb
      subst hb
      exact h.2 ha
    · exact hnodup
  · rw [heq.1]
    split_ifs with h
    · intro x hx
      rcases List.mem_append.1 hx with hx | hx
      · exact hblank x hx
      · simp at hx
        subst hx
        exact not_isBlank_trim skill (fun e => h.1 ((trim_eq_empty_iff skill).1 e))
    · exact hblank

/-- Witness for C23: adding ` rust ` to the offered list `go`. -/
theorem ProfilePageState.addSkill_invariant_witness :
    selectedSkills "offered"
          (({ profileForm := { skillsOffered := ["go"] } } : ProfilePageState).addSkill
            "offered" " rust ").profileForm
        = (if ¬ isBlank " rust " ∧ trim " rust " ∉ selectedSkills "offered"
              ({ profileForm := { skillsOffered := ["go"] } } : ProfilePageState).profileForm then
            selectedSkills "offered"
              ({ profileForm := { skillsOffered := ["go"] } } : ProfilePageState).profileForm
              ++ [trim " rust "]
           else selectedSkills "offered"
              ({ profileForm := { skillsOffered := ["go"] } } : ProfilePageState).profileForm)
      ∧ otherSkills "offered"
          (({ profileForm := { skillsOffered := ["go"] } } : ProfilePageState).addSkill
            "offered" " rust ").profileForm
        = otherSkills "offered"
            ({ profileForm := { skillsOffered := ["go"] } } : ProfilePageState).profileForm
      ∧ (selectedSkills "offered"
          (({ profileForm := { skillsOffered := ["go"] } } : ProfilePageState).addSkill
            "offered" " rust ").profileForm).Nodup
      ∧ ∀ x ∈ selectedSkills "offered"
          (({ profileForm := { skillsOffered := ["go"] } } : ProfilePageState).addSkill
            "offered" " rust ").profileForm, ¬ isBlank x :=
  ProfilePageState.addSkill_invariant { profileForm := { skillsOffered := ["go"] } }
    "offered" " rust " (by decide) (by decide)

/-- A call of `sendSwapRequest` by `handleRequestSkill` has passed the guards
of the handler. -/
theorem handleRequestSkill_sent {currentUser : Option Profile} {user : Profile}
    {skill : String} {promptAnswer : Option String} {call : SwapRequestCall}
    (h : handleRequestSkill currentUser user skill promptAnswer = RequestOutcome.sent call) :
    ∃ current mySkill, currentUser = some current ∧ promptAnswer = some mySkill
      ∧ skill ∈ orEmpty current.skillsWanted
      ∧ mySkill ≠ "" ∧ mySkill ∈ orEmpty current.skillsOffered
      ∧ call = { targetUser := user, mySkill := mySkill, theirSkill := skill } := by
  unfold handleRequestSkill at h
  cases currentUser with
  | none => cases h
  | some current =>
    simp only at h
    by_cases hwc : (orEmpty current.skillsWanted).contains skill = true
    · rw [if_pos hwc] at h
      cases promptAnswer with
      | none => cases h
      | some mySkill =>
        simp only at h
        by_cases hcond : mySkill ≠ "" ∧ (orEmpty current.skillsOffered).contains mySkill = true
        · rw [if_pos hcond] at h
          injection h with h
          exact ⟨current, mySkill, rfl, rfl, by simpa using hwc, hcond.1,
            by simpa using hcond.2, h.symm⟩
        · rw [if_neg hcond] at h
          cases h
    · rw [if_neg hwc] at h
      cases h

/-- C24: `handleRequestSkill` calls `sendSwapRequest` exactly when there is a
current user, the clicked skill is in the current user's `skillsWanted` and
the prompt answer is a non-empty string contained in the current user's
`skillsOffered`; the call pairs that answer with the clicked skill.  Without
a current user nothing happens, and a created request carries such a pair. -/
theorem handleRequestSkill_sent_iff (currentUser : Option Profile) (user : Profile)
    (skill : String) (promptAnswer : Option String) (call : SwapRequestCall) :
    (handleRequestSkill currentUser user skill promptAnswer = RequestOutcome.sent call
        ↔ ∃ current mySkill, currentUser = some current ∧ promptAnswer = some mySkill
            ∧ skill ∈ orEmpty current.skillsWanted
            ∧ mySkill ≠ "" ∧ mySkill ∈ orEmpty current.skillsOffered
            ∧ call = { targetUser := user, mySkill := mySkill, theirSkill := skill })
      ∧ handleRequestSkill none user skill promptAnswer = RequestOutcome.ignored
      ∧ requestCreated none user skill promptAnswer = none
      ∧ ∀ data, requestCreated currentUser user skill promptAnswer = some data →
          ∃ current, currentUser = some current
            ∧ data.theirSkill = skill ∧ skill ∈ orEmpty current.skillsWanted
            ∧ data.mySkill ≠ "" ∧ data.mySkill ∈ orEmpty current.skillsOffered := by
  refine ⟨⟨handleRequestSkill_sent, ?_⟩, rfl, rfl, ?_⟩
  · rintro ⟨current, mySkill, rfl, rfl, hw, hne, hin, rfl⟩
    have hwc : (orEmpty current.skillsWanted).contains skill = true := by simpa using hw
    have hcond : mySkill ≠ "" ∧ (orEmpty current.skillsOffered).contains mySkill = true :=
      ⟨hne, by simpa using hin⟩
    unfold handleRequestSkill
    simp only
    rw [if_pos hwc, if_pos hcond]
  · intro data hdata
    unfold requestCreated at hdata
    cases hout : handleRequestSkill currentUser user skill promptAnswer with
    | ignored => simp [hout] at hdata
    | alerted msg => simp [hout] at hdata
    | declined => simp [hout] at hdata
    | sent c =>
      rw [hout] at hdata
      simp only at hdata
      obtain ⟨current, mySkill, hcu, _, hw, hne, hin, hc⟩ := handleRequestSkill_sent hout
      subst hcu hc
      unfold sendSwapRequest at hdata
      cases huid : current.uid with
      | none => simp [huid] at hdata
      | some uid =>
        by_cases hu : uid = ""
        · simp [huid, hu] at hdata
        · simp only [huid, hu, if_false, Option.some.injEq] at hdata
          subst hdata
          exact ⟨current, rfl, rfl, hw, hne, hin⟩

/-- Witness for C24: the current user wants `Go` and offers `Rust`; a click on
`Go` answered with `Rust` sends the request. -/
theorem handleRequestSkill_sent_iff_witness :
    handleRequestSkill
        (some { uid := some "1", skillsOffered := some ["Rust"], skillsWanted := some ["Go"] })
        { uid := some "2", skillsOffered := some ["Go"] } "Go" (some "Rust")
      = RequestOutcome.sent
          { targetUser := { uid := some "2", skillsOffered := some ["Go"] },
            mySkill := "Rust", theirSkill := "Go" } :=
  (handleRequestSkill_sent_iff
      (some { uid := some "1", skillsOffered := some ["Rust"], skillsWanted := some ["Go"] })
      { uid := some "2", skillsOffered := some ["Go"] } "Go" (some "Rust")
      { targetUser := { uid := some "2", skillsOffered := some ["Go"] },
        mySkill := "Rust", theirSkill := "Go" }).1.2
    ⟨{ uid := some "1", skillsOffered := some ["Rust"], skillsWanted := some ["Go"] }, "Rust",
      rfl, rfl, by decide, by decide, by decide, rfl⟩

/-- C30: `removeSkill` drops the element at `index` from the selected list
when `index` is one of its positions and leaves the list as it is otherwise;
the other list and every other field stay as they are, and the version of
ProfilePage does the same to its form and leaves its input fields alone. -/
theorem removeSkill_eq (form : ProfileForm) (st : ProfilePageState) (type : String)
    (index : Int) :
    selectedSkills type (removeSkill form type index)
        = (if 0 ≤ index ∧ index < (selectedSkills type form).length then
            (selectedSkills type form).eraseIdx index.toNat
           else selectedSkills type form)
      ∧ otherSkills type (removeSkill form type index) = otherSkills type form
      ∧ (removeSkill form type index).name = form.name
      ∧ (removeSkill form type index).location = form.location
      ∧ (removeSkill form type index).availability = form.availability
      ∧ (removeSkill form type index).isPublic = form.isPublic
      ∧ (removeSkill form type index).bio = form.bio
      ∧ (st.removeSkill type index).profileForm = removeSkill st.profileForm type index
      ∧ (st.removeSkill type index).newSkillOffered = st.newSkillOffered
      ∧ (st.removeSkill type index).newSkillWanted = st.newSkillWanted
      ∧ (removeSkill { skillsOffered := ["a", "b", "c"] } "offered" 1).skillsOffered = ["a", "c"] := by
  refine ⟨?_, ?_, ?_, ?_, ?_, ?_, ?_, ?_, ?_, ?_, by decide⟩ <;>
    by_cases ht : type = "offered" <;>
    simp only [removeSkill, ProfilePageState.removeSkill, selectedSkills, otherSkills, ht,
      if_true, if_false, filterIndex_eq]

end SkillSwap
